import Mathlib

/-!
Verification of the manifold dual contouring engine
(src/manifold_dual_contouring.rs, src/mesh.rs).

The source is generic over a scalar `S: Real + Float + From<f32>`; the
embedding instantiates the scalar with `ℚ`, so all field arithmetic is
exact.  `f32` literals appearing in the source (`0.05`, `1.1`, `10.`)
are embedded as the corresponding rational literals.  Rust `HashMap`s
become association lists, `Option`-valued lookups model both absent
keys and Rust panics, and `NaN`-initialized QEF residuals become
`Option ℚ` with `none` playing the role of NaN.
-/

namespace MDC

/-- Points / vectors in 3-space (`na::Point3<S>` / `na::Vector3<S>`), componentwise. -/
abbrev Pt : Type := ℚ × ℚ × ℚ

/-- Componentwise addition of points/vectors. -/
def padd (a b : Pt) : Pt := (a.1 + b.1, a.2.1 + b.2.1, a.2.2 + b.2.2)

/-- Componentwise subtraction. -/
def psub (a b : Pt) : Pt := (a.1 - b.1, a.2.1 - b.2.1, a.2.2 - b.2.2)

/-- Scalar multiplication. -/
def psmul (t : ℚ) (a : Pt) : Pt := (t * a.1, t * a.2.1, t * a.2.2)

/-- Rust's `Float::signum` restricted to a scalar type with no NaN and no
negative zero: `-1` for negative values and `1` otherwise (Rust returns
`1.0` for `+0.0`). -/
def signumF (q : ℚ) : ℚ := if q < 0 then -1 else 1

/-- A grid index (`vertex_index::Index`).  Embedded over `ℤ` so that the
3×3×3-neighborhood arithmetic of `compact_value_grid` (offsets `x - 1`
for `x ∈ {0,1,2}`) is literal; lookups at indices that the sampler never
produced (negative ones) simply miss, exactly as the wrapped-around
`usize` lookups do in the source. -/
abbrev Index : Type := ℤ × ℤ × ℤ

/-- A tangent plane (`Plane<S>`): a point on the zero crossing and the
field normal there. -/
structure Plane where
  p : Pt
  n : Pt
deriving DecidableEq

/-- Modelled from the spec: `qef::Qef` (qef.rs is not under src/).  The
accumulator state is abstracted away; what the engine observes is the
residual `error` (NaN, i.e. `none`, until `solve` runs) and the minimizer
`solution`.  `residual` is the value that `solve` will store into
`error`; `solution` is the minimizer it computes. -/
structure Qef where
  error : Option ℚ
  solution : Pt
  residual : ℚ
deriving DecidableEq

/-- Modelled from the spec: `Qef::solve` computes the least-squares
minimizer and stores the residual into `error` (Unsolved → Solved). -/
def Qef.solve (q : Qef) : Qef := { q with error := some q.residual }

/-- A dual vertex of the octree (`Vertex<S>`).  `parent`, `children` and
`mesh_index` are handles (indices) into the adjacent octree layers and
the output mesh, as in the source. -/
structure Vertex where
  index : Index
  qef : Qef
  parent : Option ℕ
  children : List ℕ
  mesh_index : Option ℕ
  edge_intersections : Fin 12 → ℕ
  euler_characteristic : ℤ

/-- Modelled from the spec: `EDGES_ON_FACE` (vertex_index.rs is not under
src/): for each of the six faces of the cube, the four cell edges on the
boundary of that face, in the edge numbering of the source's diagram
(edge 0/1/2 start at the reference corner along +x/+y/+z, etc.). -/
def EDGES_ON_FACE : List (List (Fin 12)) :=
  [[1, 2, 7, 8], [4, 5, 10, 11], [0, 2, 5, 6], [3, 8, 9, 11], [0, 1, 3, 4], [6, 7, 9, 10]]

/-- The sum of a vertex's edge-intersection counters over a set of edges
(the inner loop of `Vertex::is_2manifold`). -/
def faceSum (v : Vertex) (face : List (Fin 12)) : ℕ :=
  (face.map v.edge_intersections).sum

/-- `Vertex::is_2manifold`. -/
def is_2manifold (v : Vertex) : Bool :=
  if v.euler_characteristic ≠ 1 then false
  else EDGES_ON_FACE.all (fun face => faceSum v face == 0 || faceSum v face == 2)

/-- C7: `is_2manifold` returns true iff the Euler characteristic is 1 and
on each of the six cube faces the sum of `edge_intersections` over the
face's four edges is 0 or 2. -/
theorem c7_is_2manifold_iff (v : Vertex) :
    is_2manifold v = true ↔
      v.euler_characteristic = 1 ∧
        ∀ face ∈ EDGES_ON_FACE, faceSum v face = 0 ∨ faceSum v face = 2 := by
  unfold is_2manifold
  split_ifs with h
  · simp only [Bool.false_eq_true, false_iff, not_and]
    intro h1
    exact absurd h1 h
  · push_neg at h
    simp [h, List.all_eq_true]

/-! ### The constructor (`ManifoldDualContouringImpl::new`) and claim C3 -/

/-- Modelled from the spec: `BoundingBox::dilate d` (external `bbox`
crate; the spec describes it as growing the box outward on each side). -/
def dilate (bmin bmax : Pt) (d : ℚ) : Pt × Pt :=
  (psub bmin (d, d, d), padd bmax (d, d, d))

/-- Modelled from the spec: `CeilAsUSize` (lib.rs is not under src/):
round a scalar up to the next unsigned integer. -/
def ceil_as_usize (q : ℚ) : ℕ := (Int.ceil q).toNat

/-- The dilation amount the constructor passes to `bbox.dilate`:
`_1 + res * From::from(1.1f32)`. -/
def newDilation (res : ℚ) : ℚ := 1 + res * (11 / 10)

/-- The sampling origin computed by `ManifoldDualContouringImpl::new`:
the min corner of the dilated bounding box. -/
def newOrigin (bmin bmax : Pt) (res : ℚ) : Pt :=
  (dilate bmin bmax (newDilation res)).1

/-- The grid dimensions computed by `ManifoldDualContouringImpl::new`:
`ceil_as_usize` of the dilated box extents divided by `res`. -/
def newDim (bmin bmax : Pt) (res : ℚ) : ℕ × ℕ × ℕ :=
  let b := dilate bmin bmax (newDilation res)
  (ceil_as_usize ((b.2.1 - b.1.1) / res),
   ceil_as_usize ((b.2.2.1 - b.1.2.1) / res),
   ceil_as_usize ((b.2.2.2 - b.1.2.2) / res))

/-- The error tolerance computed by the constructor: `res * relative_error`. -/
def newError (res relative_error : ℚ) : ℚ := res * relative_error

/-- Written from the claim, for comparison: the origin the constructor
would compute if it dilated the bounding box by `res · 2.1`. -/
def claimOrigin (bmin bmax : Pt) (res : ℚ) : Pt :=
  (dilate bmin bmax (res * (21 / 10))).1

/-- Written from the claim, for comparison: the grid dimensions under a
`res · 2.1` dilation. -/
def claimDim (bmin bmax : Pt) (res : ℚ) : ℕ × ℕ × ℕ :=
  let b := dilate bmin bmax (res * (21 / 10))
  (ceil_as_usize ((b.2.1 - b.1.1) / res),
   ceil_as_usize ((b.2.2.1 - b.1.2.1) / res),
   ceil_as_usize ((b.2.2.2 - b.1.2.2) / res))

/-- C3 counterexample: with bounding box `[0,1]³` and `res = 2 > 0` the
constructor's origin differs from the value a `res · 2.1` dilation would
give: the code dilates by `1 + res·1.1` (= 3.2 here, origin −3.2), which
equals `res·2.1` (= 4.2 here, origin −4.2) only at `res = 1`. -/
theorem c3_counterexample :
    newOrigin ((0 : ℚ), 0, 0) (1, 1, 1) 2 ≠ claimOrigin ((0 : ℚ), 0, 0) (1, 1, 1) 2 := by
  simp only [newOrigin, claimOrigin, dilate, psub, newDilation, Prod.mk.injEq, ne_eq, not_and]
  intro h
  norm_num at h

/-- C3 amended: the constructor dilates the implicit function's bounding
box by `1 + res · 1.1` (not `res · 2.1`) on each side: the origin is the
min corner moved down by `1 + 1.1·res` in each coordinate, and each grid
dimension is the ceiling of `(extent + 2·(1 + 1.1·res)) / res`. -/
theorem c3_amended_dilation (bmin bmax : Pt) (res : ℚ) :
    newOrigin bmin bmax res =
      (bmin.1 - (1 + (11 / 10) * res), bmin.2.1 - (1 + (11 / 10) * res),
        bmin.2.2 - (1 + (11 / 10) * res)) ∧
    newDim bmin bmax res =
      (ceil_as_usize ((bmax.1 - bmin.1 + 2 * (1 + (11 / 10) * res)) / res),
       ceil_as_usize ((bmax.2.1 - bmin.2.1 + 2 * (1 + (11 / 10) * res)) / res),
       ceil_as_usize ((bmax.2.2 - bmin.2.2 + 2 * (1 + (11 / 10) * res)) / res)) := by
  refine ⟨?_, ?_⟩
  · simp only [newOrigin, dilate, psub, newDilation, Prod.mk.injEq]
    refine ⟨by ring, by ring, by ring⟩
  · simp only [newDim, dilate, psub, padd, newDilation, Prod.mk.injEq]
    exact ⟨congrArg ceil_as_usize (by ring), congrArg ceil_as_usize (by ring),
      congrArg ceil_as_usize (by ring)⟩

/-! ### The driver retry loop (`tessellate`) and claim C2 -/

/-- A key of the edge grid (`EdgeIndex`): an edge label and a cell index. -/
abbrev EdgeIdx : Type := Fin 12 × Index

/-- A key of the leaf-vertex map (`VertexIndex`): the edge-component
bitset (as a 12-bit mask) and a cell index. -/
abbrev VtxKey : Type := ℕ × Index

/-- The mutable state of `ManifoldDualContouringImpl` that the retry
loop manipulates. -/
structure TessState where
  origin : Pt
  dim : ℕ × ℕ × ℕ
  res : ℚ
  error : ℚ
  value_grid : List (Index × ℚ)
  edge_grid : List (EdgeIdx × Plane)
  mesh_vertices : List Pt
  mesh_faces : List (List ℕ)
  vertex_octtree : List (List Vertex)
  vertex_index_map : List (VtxKey × ℕ)

/-- The `Err` branch of `tessellate`'s retry loop: jitter the origin by
`-res / (10 + rand.abs())` on each axis (the three `rand::random::<f32>()`
draws are parameters `r1 r2 r3`), then clear `value_grid`, the mesh
vertices and faces, `vertex_octtree` and `vertex_index_map`.  (The code
does not touch `edge_grid` here.) -/
def retryStep (s : TessState) (r1 r2 r3 : ℚ) : TessState :=
  let padding : Pt := (-s.res / (10 + |r1|), -s.res / (10 + |r2|), -s.res / (10 + |r3|))
  { s with
    origin := padd s.origin padding
    value_grid := []
    mesh_vertices := []
    mesh_faces := []
    vertex_octtree := []
    vertex_index_map := [] }

/-- A concrete pre-retry state whose edge grid is non-empty. -/
def c2State : TessState :=
  { origin := (0, 0, 0)
    dim := (4, 4, 4)
    res := 1
    error := 1 / 10
    value_grid := [((0, 0, 0), 1)]
    edge_grid := [((0, (0, 0, 0)), ⟨(0, 0, 0), (1, 0, 0)⟩)]
    mesh_vertices := [(0, 0, 0)]
    mesh_faces := [[0, 0, 0]]
    vertex_octtree := []
    vertex_index_map := [((1, (0, 0, 0)), 0)] }

/-- C2 counterexample: the retry branch does not clear the edge grid; on
`c2State` (with one stale edge entry) the edge grid survives the retry
unchanged and non-empty, contrary to the claim that all per-attempt
state including the edge grid is cleared. -/
theorem c2_counterexample :
    (retryStep c2State 0 0 0).edge_grid = c2State.edge_grid ∧
      c2State.edge_grid ≠ [] := by
  exact ⟨rfl, by simp [c2State]⟩

/-- The per-coordinate jitter `x ↦ x + -res / (10 + |r|)` moves a
coordinate down by a magnitude in `(res/11, res/10]` when the random
draw `r` lies in `[0,1)` and `res > 0`. -/
theorem retry_jitter_bounds (res r x : ℚ) (hr : 0 ≤ r) (hr' : r < 1) (hres : 0 < res) :
    x - (x + -res / (10 + |r|)) ≤ res / 10 ∧
      res / 11 < x - (x + -res / (10 + |r|)) := by
  have habs : |r| = r := abs_of_nonneg hr
  have h10 : (0 : ℚ) < 10 + |r| := by rw [habs]; linarith
  have hx : x - (x + -res / (10 + |r|)) = res / (10 + |r|) := by field_simp
  rw [hx]
  constructor
  · apply div_le_div_of_nonneg_left (le_of_lt hres) (by norm_num) (by rw [habs]; linarith)
  · apply div_lt_div_of_pos_left hres h10 (by rw [habs]; linarith)

/-- C2 amended: on a HitZero failure the retry branch adds to each of
the three coordinates of the origin a negative offset of magnitude in
`(res/11, res/10]` (given `res > 0` and random draws in `[0,1)`), and
clears the value grid, the mesh vertices and faces, the vertex octree
layers and the vertex index map — but leaves the edge grid untouched. -/
theorem c2_amended_retry (s : TessState) (r1 r2 r3 : ℚ)
    (h1 : 0 ≤ r1) (h1' : r1 < 1) (h2 : 0 ≤ r2) (h2' : r2 < 1)
    (h3 : 0 ≤ r3) (h3' : r3 < 1) (hres : 0 < s.res) :
    (retryStep s r1 r2 r3).value_grid = [] ∧
    (retryStep s r1 r2 r3).mesh_vertices = [] ∧
    (retryStep s r1 r2 r3).mesh_faces = [] ∧
    (retryStep s r1 r2 r3).vertex_octtree = [] ∧
    (retryStep s r1 r2 r3).vertex_index_map = [] ∧
    (retryStep s r1 r2 r3).edge_grid = s.edge_grid ∧
    (retryStep s r1 r2 r3).origin.1 = s.origin.1 + -s.res / (10 + |r1|) ∧
    (retryStep s r1 r2 r3).origin.2.1 = s.origin.2.1 + -s.res / (10 + |r2|) ∧
    (retryStep s r1 r2 r3).origin.2.2 = s.origin.2.2 + -s.res / (10 + |r3|) ∧
    (s.origin.1 - (retryStep s r1 r2 r3).origin.1 ≤ s.res / 10 ∧
      s.res / 11 < s.origin.1 - (retryStep s r1 r2 r3).origin.1) ∧
    (s.origin.2.1 - (retryStep s r1 r2 r3).origin.2.1 ≤ s.res / 10 ∧
      s.res / 11 < s.origin.2.1 - (retryStep s r1 r2 r3).origin.2.1) ∧
    (s.origin.2.2 - (retryStep s r1 r2 r3).origin.2.2 ≤ s.res / 10 ∧
      s.res / 11 < s.origin.2.2 - (retryStep s r1 r2 r3).origin.2.2) := by
  refine ⟨rfl, rfl, rfl, rfl, rfl, rfl, rfl, rfl, rfl, ?_, ?_, ?_⟩
  · simp only [retryStep, padd]
    exact retry_jitter_bounds s.res r1 s.origin.1 h1 h1' hres
  · simp only [retryStep, padd]
    exact retry_jitter_bounds s.res r2 s.origin.2.1 h2 h2' hres
  · simp only [retryStep, padd]
    exact retry_jitter_bounds s.res r3 s.origin.2.2 h3 h3' hres

/-- C2 amended witness: the amended theorem applied to `c2State` with
random draws `1/2`, `1/3`, `1/4`. -/
theorem c2_amended_retry_witness :
    (0 : ℚ) ≤ 1 / 2 ∧ (1 / 2 : ℚ) < 1 ∧ (0 : ℚ) ≤ 1 / 3 ∧ (1 / 3 : ℚ) < 1 ∧
    (0 : ℚ) ≤ 1 / 4 ∧ (1 / 4 : ℚ) < 1 ∧ (0 : ℚ) < c2State.res ∧
      ((retryStep c2State (1 / 2) (1 / 3) (1 / 4)).value_grid = [] ∧
       (retryStep c2State (1 / 2) (1 / 3) (1 / 4)).mesh_vertices = [] ∧
       (retryStep c2State (1 / 2) (1 / 3) (1 / 4)).mesh_faces = [] ∧
       (retryStep c2State (1 / 2) (1 / 3) (1 / 4)).vertex_octtree = [] ∧
       (retryStep c2State (1 / 2) (1 / 3) (1 / 4)).vertex_index_map = [] ∧
       (retryStep c2State (1 / 2) (1 / 3) (1 / 4)).edge_grid = c2State.edge_grid ∧
       (retryStep c2State (1 / 2) (1 / 3) (1 / 4)).origin.1 =
         c2State.origin.1 + -c2State.res / (10 + |(1 / 2 : ℚ)|) ∧
       (retryStep c2State (1 / 2) (1 / 3) (1 / 4)).origin.2.1 =
         c2State.origin.2.1 + -c2State.res / (10 + |(1 / 3 : ℚ)|) ∧
       (retryStep c2State (1 / 2) (1 / 3) (1 / 4)).origin.2.2 =
         c2State.origin.2.2 + -c2State.res / (10 + |(1 / 4 : ℚ)|) ∧
       (c2State.origin.1 - (retryStep c2State (1 / 2) (1 / 3) (1 / 4)).origin.1 ≤
          c2State.res / 10 ∧
        c2State.res / 11 <
          c2State.origin.1 - (retryStep c2State (1 / 2) (1 / 3) (1 / 4)).origin.1) ∧
       (c2State.origin.2.1 - (retryStep c2State (1 / 2) (1 / 3) (1 / 4)).origin.2.1 ≤
          c2State.res / 10 ∧
        c2State.res / 11 <
          c2State.origin.2.1 - (retryStep c2State (1 / 2) (1 / 3) (1 / 4)).origin.2.1) ∧
       (c2State.origin.2.2 - (retryStep c2State (1 / 2) (1 / 3) (1 / 4)).origin.2.2 ≤
          c2State.res / 10 ∧
        c2State.res / 11 <
          c2State.origin.2.2 - (retryStep c2State (1 / 2) (1 / 3) (1 / 4)).origin.2.2)) :=
  ⟨by norm_num, by norm_num, by norm_num, by norm_num, by norm_num, by norm_num,
    by norm_num [c2State],
    c2_amended_retry c2State (1 / 2) (1 / 3) (1 / 4) (by norm_num) (by norm_num)
      (by norm_num) (by norm_num) (by norm_num) (by norm_num) (by norm_num [c2State])⟩

/-! ### Zero-crossing localization (`find_zero`) and claims C5, C8 -/

/-- `PRECISION` — how accurately to find zero crossings. -/
def PRECISION : ℚ := 1 / 20

/-- The max-coordinate extent of the segment `a b`: for `d = a - b`,
`max(max |d.x| |d.y|) |d.z|` as computed in `find_zero`. -/
def dInf (a b : Pt) : ℚ :=
  max (max |a.1 - b.1| |a.2.1 - b.2.1|) |a.2.2 - b.2.2|

/-- `find_zero`'s `distance` after the two `min`s:
`min (min (dInf a b) |av|) |bv|`. -/
def findZeroDist (a : Pt) (av : ℚ) (b : Pt) (bv : ℚ) : ℚ :=
  min (min (dInf a b) |av|) |bv|

/-- The secant zero used by `find_zero`:
`n = a + (b - a) * (|av| / |bv - av|)`. -/
def secantPoint (a : Pt) (av : ℚ) (b : Pt) (bv : ℚ) : Pt :=
  padd a (psmul (|av| / |bv - av|) (psub b a))

/-- `find_zero`, with the field `f` and the normal operator `nrm` of the
implicit function passed explicitly, and the recursion depth made
explicit by a fuel parameter (exhausted fuel yields `none`; so does the
`assert!(a != b)` panic).  `n = secantPoint a av b bv` and `nv = f n`
are the source's local bindings, inlined. -/
def findZero (f : Pt → ℚ) (nrm : Pt → Pt) (res : ℚ) :
    ℕ → Pt → ℚ → Pt → ℚ → Option Plane
  | 0, _, _, _, _ => none
  | fuel + 1, a, av, b, bv =>
    if a = b then none
    else if signumF av = signumF bv then none
    else if findZeroDist a av b bv < PRECISION * res then
      some ⟨if |bv| < |av| then b else a, nrm (if |bv| < |av| then b else a)⟩
    else if signumF av ≠ signumF (f (secantPoint a av b bv)) then
      findZero f nrm res fuel a av (secantPoint a av b bv) (f (secantPoint a av b bv))
    else
      findZero f nrm res fuel (secantPoint a av b bv) (f (secantPoint a av b bv)) b bv

/-- The arguments `find_zero` recurses on from `(a, av, b, bv)`, or
`none` when no recursive call happens (panic, equal signs, or the
base case). -/
def findZeroStep (f : Pt → ℚ) (res : ℚ) (a : Pt) (av : ℚ) (b : Pt) (bv : ℚ) :
    Option (Pt × ℚ × Pt × ℚ) :=
  if a = b then none
  else if signumF av = signumF bv then none
  else if findZeroDist a av b bv < PRECISION * res then none
  else if signumF av ≠ signumF (f (secantPoint a av b bv)) then
    some (a, av, secantPoint a av b bv, f (secantPoint a av b bv))
  else
    some (secantPoint a av b bv, f (secantPoint a av b bv), b, bv)

/-- `findZeroStep` really is the recursion relation of `findZero`: when a
step is taken, one unit of fuel is consumed and `findZero` continues on
the step's arguments. -/
theorem findZero_step_sound (f : Pt → ℚ) (nrm : Pt → Pt) (res : ℚ) (fuel : ℕ)
    (a : Pt) (av : ℚ) (b : Pt) (bv : ℚ) (a' : Pt) (av' : ℚ) (b' : Pt) (bv' : ℚ)
    (h : findZeroStep f res a av b bv = some (a', av', b', bv')) :
    findZero f nrm res (fuel + 1) a av b bv = findZero f nrm res fuel a' av' b' bv' := by
  unfold findZeroStep at h
  split_ifs at h with h1 h2 h3 h4
  · simp only [Option.some.injEq, Prod.mk.injEq] at h
    obtain ⟨ha', hav', hb', hbv'⟩ := h
    subst ha'; subst hav'; subst hb'; subst hbv'
    simp only [findZero]
    rw [if_neg h1, if_neg h2, if_neg h3, if_pos h4]
  · simp only [Option.some.injEq, Prod.mk.injEq] at h
    obtain ⟨ha', hav', hb', hbv'⟩ := h
    subst ha'; subst hav'; subst hb'; subst hbv'
    simp only [findZero]
    rw [if_neg h1, if_neg h2, if_neg h3, if_neg h4]

/-- The field used for the C8 counterexample: a step function crossing
zero between `x = 0` and `x = 10`. -/
def c8f : Pt → ℚ := fun p => if p.1 < 5 then -(1 / 10) else 1 / 10

/-- Evaluation of `findZeroStep` on the C8 instance: the secant point is
`(5,0,0)`, where `c8f` is `1/10`, so the recursion keeps `a` and its
value `-1/10`. -/
theorem c8_step_eval :
    findZeroStep c8f 1 (0, 0, 0) (-(1 / 10)) (10, 0, 0) (1 / 10) =
      some ((0, 0, 0), -(1 / 10), (5, 0, 0), 1 / 10) := by
  have e1 : |(-(1 / 10) : ℚ)| = 1 / 10 := by norm_num
  have e2 : |(1 / 10 : ℚ)| = 1 / 10 := by norm_num
  have e3 : |(1 / 5 : ℚ)| = 1 / 5 := by norm_num
  have hn : secantPoint ((0 : ℚ), 0, 0) (-(1 / 10)) ((10 : ℚ), 0, 0) (1 / 10) =
      ((5 : ℚ), 0, 0) := by
    norm_num [secantPoint, padd, psmul, psub, e1, e3]
  have hcf : c8f ((5 : ℚ), 0, 0) = 1 / 10 := by norm_num [c8f]
  have c1 : ¬(((0 : ℚ), (0 : ℚ), (0 : ℚ)) = ((10 : ℚ), (0 : ℚ), (0 : ℚ))) := by
    intro h
    have h1 := congrArg Prod.fst h
    norm_num at h1
  have c2 : ¬ signumF (-(1 / 10)) = signumF (1 / 10) := by norm_num [signumF]
  have c3 : ¬ findZeroDist ((0 : ℚ), 0, 0) (-(1 / 10)) ((10 : ℚ), 0, 0) (1 / 10) <
      PRECISION * 1 := by
    norm_num [findZeroDist, dInf, PRECISION, e1, e2]
  unfold findZeroStep
  rw [hn, hcf]
  rw [if_neg c1, if_neg c2, if_neg c3, if_pos c2]

/-- C8 counterexample: on the edge from `(0,0,0)` (value `-1/10`) to
`(10,0,0)` (value `1/10`) with `res = 1`, `find_zero` recurses (the step
is `some`), but `dist` does not strictly decrease: it equals `1/10`
both before and after the step (it is capped by `|av| = 1/10`, which the
retained endpoint keeps). -/
theorem c8_counterexample :
    findZeroStep c8f 1 (0, 0, 0) (-(1 / 10)) (10, 0, 0) (1 / 10) =
        some ((0, 0, 0), -(1 / 10), (5, 0, 0), 1 / 10) ∧
      ¬ findZeroDist (0, 0, 0) (-(1 / 10)) (5, 0, 0) (1 / 10) <
          findZeroDist (0, 0, 0) (-(1 / 10)) (10, 0, 0) (1 / 10) := by
  have e1 : |(-(1 / 10) : ℚ)| = 1 / 10 := by norm_num
  have e2 : |(1 / 10 : ℚ)| = 1 / 10 := by norm_num
  exact ⟨c8_step_eval, by norm_num [findZeroDist, dInf, e1, e2]⟩

/-- Scaling a segment from its `a` end scales its max-coordinate extent. -/
theorem dInf_scale_left (a b : Pt) (t : ℚ) (ht : 0 ≤ t) :
    dInf a (padd a (psmul t (psub b a))) = t * dInf a b := by
  obtain ⟨a1, a2, a3⟩ := a
  obtain ⟨b1, b2, b3⟩ := b
  simp only [dInf, padd, psmul, psub]
  rw [show a1 - (a1 + t * (b1 - a1)) = t * (a1 - b1) by ring,
    show a2 - (a2 + t * (b2 - a2)) = t * (a2 - b2) by ring,
    show a3 - (a3 + t * (b3 - a3)) = t * (a3 - b3) by ring,
    abs_mul, abs_mul, abs_mul, abs_of_nonneg ht,
    mul_max_of_nonneg _ _ ht, mul_max_of_nonneg _ _ ht]

/-- Scaling a segment from its `a` end leaves a `(1-t)`-scaled remainder
towards `b`. -/
theorem dInf_scale_right (a b : Pt) (t : ℚ) (_ht : 0 ≤ t) (ht1 : t ≤ 1) :
    dInf (padd a (psmul t (psub b a))) b = (1 - t) * dInf a b := by
  obtain ⟨a1, a2, a3⟩ := a
  obtain ⟨b1, b2, b3⟩ := b
  simp only [dInf, padd, psmul, psub]
  rw [show a1 + t * (b1 - a1) - b1 = (1 - t) * (a1 - b1) by ring,
    show a2 + t * (b2 - a2) - b2 = (1 - t) * (a2 - b2) by ring,
    show a3 + t * (b3 - a3) - b3 = (1 - t) * (a3 - b3) by ring,
    abs_mul, abs_mul, abs_mul, abs_of_nonneg (by linarith : (0 : ℚ) ≤ 1 - t),
    mul_max_of_nonneg _ _ (by linarith : (0 : ℚ) ≤ 1 - t),
    mul_max_of_nonneg _ _ (by linarith : (0 : ℚ) ≤ 1 - t)]

/-- Opposite `signum`s on nonzero values make `|bv - av|` the sum of the
absolute values. -/
theorem abs_sub_of_signumF_ne (av bv : ℚ) (h : ¬ signumF av = signumF bv)
    (hav : av ≠ 0) (hbv : bv ≠ 0) : |bv - av| = |av| + |bv| := by
  unfold signumF at h
  by_cases ha : av < 0 <;> by_cases hb : bv < 0
  · rw [if_pos ha, if_pos hb] at h
    exact absurd rfl h
  · have hb' : 0 < bv := lt_of_le_of_ne (not_lt.mp hb) (Ne.symm hbv)
    rw [abs_of_pos (by linarith : 0 < bv - av), abs_of_neg ha, abs_of_pos hb']
    ring
  · have ha' : 0 < av := lt_of_le_of_ne (not_lt.mp ha) (Ne.symm hav)
    rw [abs_of_neg (by linarith : bv - av < 0), abs_of_pos ha', abs_of_neg hb]
    ring
  · rw [if_neg ha, if_neg hb] at h
    exact absurd rfl h

/-- Shared facts available when `find_zero` takes a recursive step. -/
theorem findZero_step_facts (res : ℚ) (a : Pt) (av : ℚ) (b : Pt) (bv : ℚ)
    (hres : 0 < res) (h3 : ¬ findZeroDist a av b bv < PRECISION * res) :
    0 < |av| ∧ 0 < |bv| ∧ 0 < dInf a b := by
  have heps : 0 < PRECISION * res := by
    have : (0 : ℚ) < PRECISION := by norm_num [PRECISION]
    positivity
  have hdist : PRECISION * res ≤ findZeroDist a av b bv := not_lt.mp h3
  refine ⟨lt_of_lt_of_le heps (le_trans hdist ?_),
    lt_of_lt_of_le heps (le_trans hdist ?_),
    lt_of_lt_of_le heps (le_trans hdist ?_)⟩
  · exact le_trans (min_le_left _ _) (min_le_right _ _)
  · exact min_le_right _ _
  · exact le_trans (min_le_left _ _) (min_le_left _ _)

/-- The secant parameter `t = |av| / |bv - av|` lies strictly between 0
and 1 when a recursive step is taken. -/
theorem secant_t_mem (res : ℚ) (a : Pt) (av : ℚ) (b : Pt) (bv : ℚ)
    (hres : 0 < res) (h2 : ¬ signumF av = signumF bv)
    (h3 : ¬ findZeroDist a av b bv < PRECISION * res) :
    0 < |av| / |bv - av| ∧ |av| / |bv - av| < 1 := by
  obtain ⟨hav, hbv, -⟩ := findZero_step_facts res a av b bv hres h3
  have hsub : |bv - av| = |av| + |bv| :=
    abs_sub_of_signumF_ne av bv h2 (abs_pos.mp hav) (abs_pos.mp hbv)
  constructor
  · exact div_pos hav (by rw [hsub]; positivity)
  · rw [hsub]
    exact (div_lt_one (by positivity)).mpr (by linarith)

/-- When `find_zero` steps towards `a`, the extent shrinks strictly. -/
theorem dInf_secant_left (res : ℚ) (a : Pt) (av : ℚ) (b : Pt) (bv : ℚ)
    (hres : 0 < res) (h2 : ¬ signumF av = signumF bv)
    (h3 : ¬ findZeroDist a av b bv < PRECISION * res) :
    dInf a (secantPoint a av b bv) < dInf a b := by
  obtain ⟨-, -, hd⟩ := findZero_step_facts res a av b bv hres h3
  obtain ⟨ht0, ht1⟩ := secant_t_mem res a av b bv hres h2 h3
  rw [secantPoint, dInf_scale_left a b _ ht0.le]
  exact mul_lt_of_lt_one_left hd ht1

/-- When `find_zero` steps towards `b`, the extent shrinks strictly. -/
theorem dInf_secant_right (res : ℚ) (a : Pt) (av : ℚ) (b : Pt) (bv : ℚ)
    (hres : 0 < res) (h2 : ¬ signumF av = signumF bv)
    (h3 : ¬ findZeroDist a av b bv < PRECISION * res) :
    dInf (secantPoint a av b bv) b < dInf a b := by
  obtain ⟨-, -, hd⟩ := findZero_step_facts res a av b bv hres h3
  obtain ⟨ht0, ht1⟩ := secant_t_mem res a av b bv hres h2 h3
  rw [secantPoint, dInf_scale_right a b _ ht0.le ht1.le]
  exact mul_lt_of_lt_one_left hd (by linarith)

/-- C8 amended: `find_zero` recursion on a bracketing half strictly
shrinks the segment: whenever a recursive step is taken (for `res > 0`),
the max-coordinate extent `d = max(|ax−bx|,|ay−by|,|az−bz|)` of the new
argument pair is strictly smaller than that of the old one.  (The
quantity `dist = min(d, |av|, |bv|)` itself need not decrease, as the
counterexample shows.) -/
theorem c8_amended_extent_decreases (f : Pt → ℚ) (res : ℚ) (a : Pt) (av : ℚ)
    (b : Pt) (bv : ℚ) (a' : Pt) (av' : ℚ) (b' : Pt) (bv' : ℚ)
    (hres : 0 < res)
    (hstep : findZeroStep f res a av b bv = some (a', av', b', bv')) :
    dInf a' b' < dInf a b := by
  unfold findZeroStep at hstep
  split_ifs at hstep with h1 h2 h3 h4
  · simp only [Option.some.injEq, Prod.mk.injEq] at hstep
    obtain ⟨ha', -, hb', -⟩ := hstep
    rw [← ha', ← hb']
    exact dInf_secant_left res a av b bv hres h2 h3
  · simp only [Option.some.injEq, Prod.mk.injEq] at hstep
    obtain ⟨ha', -, hb', -⟩ := hstep
    rw [← ha', ← hb']
    exact dInf_secant_right res a av b bv hres h2 h3

/-- C8 amended witness: the amended theorem applied to the `c8f`
instance; the extent shrinks from 10 to 5. -/
theorem c8_amended_extent_decreases_witness :
    (0 : ℚ) < 1 ∧
      findZeroStep c8f 1 (0, 0, 0) (-(1 / 10)) (10, 0, 0) (1 / 10) =
        some ((0, 0, 0), -(1 / 10), (5, 0, 0), 1 / 10) ∧
      dInf ((0 : ℚ), 0, 0) ((5 : ℚ), 0, 0) < dInf ((0 : ℚ), 0, 0) ((10 : ℚ), 0, 0) :=
  ⟨by norm_num, c8_step_eval,
    c8_amended_extent_decreases c8f 1 _ _ _ _ _ _ _ _ (by norm_num) c8_step_eval⟩

/-- C5: whenever `find_zero` returns a plane (given that `av`, `bv` are
the field values at `a`, `b`), the plane's point `p` satisfies
`|F(p)| < PRECISION · res`, or `p` is an endpoint of the final
bracketing pair — the one with the smaller absolute field value. -/
theorem c5_find_zero_bound (f : Pt → ℚ) (nrm : Pt → Pt) (res : ℚ) (fuel : ℕ) :
    ∀ (a : Pt) (av : ℚ) (b : Pt) (bv : ℚ) (pl : Plane),
      av = f a → bv = f b →
      findZero f nrm res fuel a av b bv = some pl →
      (|f pl.p| < PRECISION * res ∨
        ∃ a' b', signumF (f a') ≠ signumF (f b') ∧
          findZeroDist a' (f a') b' (f b') < PRECISION * res ∧
          ((pl.p = a' ∧ |f a'| ≤ |f b'|) ∨ (pl.p = b' ∧ |f b'| < |f a'|))) := by
  induction fuel with
  | zero =>
    intro a av b bv pl _ _ h
    simp [findZero] at h
  | succ fuel ih =>
    intro a av b bv pl ha hb h
    rw [findZero] at h
    by_cases h1 : a = b
    · rw [if_pos h1] at h
      exact absurd h (by simp)
    rw [if_neg h1] at h
    by_cases h2 : signumF av = signumF bv
    · rw [if_pos h2] at h
      exact absurd h (by simp)
    rw [if_neg h2] at h
    by_cases h3 : findZeroDist a av b bv < PRECISION * res
    · -- base case: the endpoint of smaller `|value|` is returned
      rw [if_pos h3] at h
      right
      subst ha
      subst hb
      by_cases h4 : |f b| < |f a|
      · rw [if_pos h4] at h
        simp only [Option.some.injEq] at h
        exact ⟨a, b, h2, h3, Or.inr ⟨by rw [← h], h4⟩⟩
      · rw [if_neg h4] at h
        simp only [Option.some.injEq] at h
        exact ⟨a, b, h2, h3, Or.inl ⟨by rw [← h], not_lt.mp h4⟩⟩
    rw [if_neg h3] at h
    by_cases h4 : signumF av ≠ signumF (f (secantPoint a av b bv))
    · rw [if_pos h4] at h
      exact ih a av _ _ pl ha rfl h
    · rw [if_neg h4] at h
      exact ih _ _ b bv pl rfl hb h

/-- The linear field used for the C5 witness. -/
def c5f : Pt → ℚ := fun p => p.1 - 1 / 2

/-- The (constant) normal operator used for the C5 witness. -/
def c5n : Pt → Pt := fun _ => (1, 0, 0)

/-- Evaluation of `findZero` on the C5 witness instance: the secant hits
the zero `x = 1/2` exactly, and the next level returns it. -/
theorem c5_run_eval :
    findZero c5f c5n 1 3 (0, 0, 0) (-(1 / 2)) (1, 0, 0) (1 / 2) =
      some ⟨(1 / 2, 0, 0), (1, 0, 0)⟩ := by
  have e1 : |(-(1 / 2) : ℚ)| = 1 / 2 := by norm_num
  have e2 : |(1 / 2 : ℚ)| = 1 / 2 := by norm_num
  have e3 : |(1 : ℚ)| = 1 := by norm_num
  have e0 : |(0 : ℚ)| = 0 := by norm_num
  have hn : secantPoint ((0 : ℚ), 0, 0) (-(1 / 2)) ((1 : ℚ), 0, 0) (1 / 2) =
      ((1 / 2 : ℚ), 0, 0) := by
    norm_num [secantPoint, padd, psmul, psub, e1, e3]
  have hcf : c5f ((1 / 2 : ℚ), 0, 0) = 0 := by norm_num [c5f]
  have c1 : ¬(((0 : ℚ), (0 : ℚ), (0 : ℚ)) = ((1 : ℚ), (0 : ℚ), (0 : ℚ))) := by
    intro h
    have h1 := congrArg Prod.fst h
    norm_num at h1
  have c2 : ¬ signumF (-(1 / 2)) = signumF (1 / 2) := by norm_num [signumF]
  have c3 : ¬ findZeroDist ((0 : ℚ), 0, 0) (-(1 / 2)) ((1 : ℚ), 0, 0) (1 / 2) <
      PRECISION * 1 := by
    norm_num [findZeroDist, dInf, PRECISION, e1, e2]
  have c4 : signumF (-(1 / 2) : ℚ) ≠ signumF (0 : ℚ) := by norm_num [signumF]
  rw [findZero]
  rw [if_neg c1, if_neg c2, if_neg c3, hn, hcf, if_pos c4]
  -- second level: pair `((0,0,0), -1/2)` and `((1/2,0,0), 0)`
  have d1 : ¬(((0 : ℚ), (0 : ℚ), (0 : ℚ)) = ((1 / 2 : ℚ), (0 : ℚ), (0 : ℚ))) := by
    intro h
    have h1 := congrArg Prod.fst h
    norm_num at h1
  have d3 : findZeroDist ((0 : ℚ), 0, 0) (-(1 / 2)) ((1 / 2 : ℚ), 0, 0) 0 <
      PRECISION * 1 := by
    norm_num [findZeroDist, dInf, PRECISION, e1, e0]
  have d4 : |(0 : ℚ)| < |(-(1 / 2) : ℚ)| := by norm_num
  rw [findZero]
  rw [if_neg d1, if_neg c4, if_pos d3, if_pos d4]
  rfl

/-- C5 witness: the bound theorem applied to the linear field `c5f` on
the edge from `(0,0,0)` to `(1,0,0)` with `res = 1`. -/
theorem c5_find_zero_bound_witness :
    (-(1 / 2) : ℚ) = c5f (0, 0, 0) ∧ (1 / 2 : ℚ) = c5f (1, 0, 0) ∧
      findZero c5f c5n 1 3 (0, 0, 0) (-(1 / 2)) (1, 0, 0) (1 / 2) =
        some ⟨(1 / 2, 0, 0), (1, 0, 0)⟩ ∧
      (|c5f (Plane.mk (1 / 2, 0, 0) (1, 0, 0)).p| < PRECISION * 1 ∨
        ∃ a' b', signumF (c5f a') ≠ signumF (c5f b') ∧
          findZeroDist a' (c5f a') b' (c5f b') < PRECISION * 1 ∧
          (((Plane.mk ((1 / 2 : ℚ), 0, 0) ((1 : ℚ), 0, 0)).p = a' ∧
              |c5f a'| ≤ |c5f b'|) ∨
            ((Plane.mk ((1 / 2 : ℚ), 0, 0) ((1 : ℚ), 0, 0)).p = b' ∧
              |c5f b'| < |c5f a'|))) :=
  ⟨by norm_num [c5f], by norm_num [c5f], c5_run_eval,
    c5_find_zero_bound c5f c5n 1 3 (0, 0, 0) (-(1 / 2)) (1, 0, 0) (1 / 2)
      (Plane.mk (1 / 2, 0, 0) (1, 0, 0)) (by norm_num [c5f]) (by norm_num [c5f])
      c5_run_eval⟩

/-! ### Grid compaction (`compact_value_grid`) and claim C9 -/

/-- The sparse value grid, as an association list (`HashMap<Index, S>`). -/
abbrev Grid : Type := List (Index × ℚ)

/-- Componentwise addition of indices. -/
def iadd (a b : Index) : Index := (a.1 + b.1, a.2.1 + b.2.1, a.2.2 + b.2.2)

/-- Map lookup (`HashMap::get`): the first binding of the key, if any. -/
def gridGet : Grid → Index → Option ℚ
  | [], _ => none
  | e :: tl, k => if e.1 = k then some e.2 else gridGet tl k

/-- The 27 neighborhood offsets `(x-1, y-1, z-1)` for
`x, y, z ∈ {0,1,2}`, in the source's z-outer/y-middle/x-inner loop
order. -/
def offsets27 : List Index :=
  [(-1, -1, -1), (0, -1, -1), (1, -1, -1), (-1, 0, -1), (0, 0, -1), (1, 0, -1),
   (-1, 1, -1), (0, 1, -1), (1, 1, -1),
   (-1, -1, 0), (0, -1, 0), (1, -1, 0), (-1, 0, 0), (0, 0, 0), (1, 0, 0),
   (-1, 1, 0), (0, 1, 0), (1, 1, 0),
   (-1, -1, 1), (0, -1, 1), (1, -1, 1), (-1, 0, 1), (0, 0, 1), (1, 0, 1),
   (-1, 1, 1), (0, 1, 1), (1, 1, 1)]

/-- The filter body of `compact_value_grid`, negated: `true` iff some
present neighbor in the 3×3×3 block around `idx` has a different
`signum` than `v` (such entries are *kept*). -/
def hasOppositeNeighbor (g : Grid) (idx : Index) (v : ℚ) : Bool :=
  offsets27.any (fun o =>
    match gridGet g (iadd idx o) with
    | some w => decide (¬ signumF v = signumF w)
    | none => false)

/-- `compact_value_grid`: delete all entries that have no value of
opposing signum at any neighboring index. -/
def compact_value_grid (g : Grid) : Grid :=
  g.filter (fun e => hasOppositeNeighbor g e.1 e.2)

/-- Lookup of a present key under distinct keys. -/
theorem gridGet_eq_some_of_mem (g : Grid) (j : Index) (w : ℚ)
    (hnodup : (g.map Prod.fst).Nodup) (hmem : (j, w) ∈ g) :
    gridGet g j = some w := by
  induction g with
  | nil => simp at hmem
  | cons e tl ih =>
    simp only [List.map_cons, List.nodup_cons] at hnodup
    rcases List.mem_cons.mp hmem with rfl | htl
    · simp [gridGet]
    · have hne : ¬ e.1 = j := by
        intro hj
        exact hnodup.1 (hj ▸ List.mem_map_of_mem Prod.fst htl)
      rw [gridGet, if_neg hne]
      exact ih hnodup.2 htl

/-- A successful lookup exhibits a grid entry. -/
theorem mem_of_gridGet_eq_some (g : Grid) (j : Index) (w : ℚ)
    (h : gridGet g j = some w) : (j, w) ∈ g := by
  induction g with
  | nil => simp [gridGet] at h
  | cons e tl ih =>
    by_cases he : e.1 = j
    · rw [gridGet, if_pos he] at h
      simp only [Option.some.injEq] at h
      have : e = (j, w) := Prod.ext he h
      rw [← this]
      exact List.mem_cons_self e tl
    · rw [gridGet, if_neg he] at h
      exact List.mem_cons_of_mem e (ih h)

/-- Membership in `offsets27` is exactly the Chebyshev-1 box. -/
theorem mem_offsets27_iff (o : Index) :
    o ∈ offsets27 ↔ |o.1| ≤ 1 ∧ |o.2.1| ≤ 1 ∧ |o.2.2| ≤ 1 := by
  obtain ⟨x, y, z⟩ := o
  dsimp only
  constructor
  · intro h
    fin_cases h <;> norm_num
  · rintro ⟨hx, hy, hz⟩
    rw [abs_le] at hx hy hz
    have hx' : x = -1 ∨ x = 0 ∨ x = 1 := by omega
    have hy' : y = -1 ∨ y = 0 ∨ y = 1 := by omega
    have hz' : z = -1 ∨ z = 0 ∨ z = 1 := by omega
    rcases hx' with rfl | rfl | rfl <;> rcases hy' with rfl | rfl | rfl <;>
      rcases hz' with rfl | rfl | rfl <;> decide

/-- Opposite strict signs make `signumF` differ. -/
theorem signumF_ne_of_opposite (v w : ℚ)
    (h : (v < 0 ∧ 0 < w) ∨ (w < 0 ∧ 0 < v)) :
    ¬ signumF v = signumF w := by
  rcases h with ⟨hv, hw⟩ | ⟨hw, hv⟩ <;>
    norm_num [signumF, hv, hw, not_lt.mpr hv.le, not_lt.mpr hw.le]

/-- Differing `signumF` on nonzero values means opposite strict signs. -/
theorem opposite_of_signumF_ne (v w : ℚ) (hv : v ≠ 0) (hw : w ≠ 0)
    (h : ¬ signumF v = signumF w) :
    (v < 0 ∧ 0 < w) ∨ (w < 0 ∧ 0 < v) := by
  unfold signumF at h
  by_cases hv' : v < 0 <;> by_cases hw' : w < 0
  · rw [if_pos hv', if_pos hw'] at h
    exact absurd rfl h
  · exact Or.inl ⟨hv', lt_of_le_of_ne (not_lt.mp hw') (Ne.symm hw)⟩
  · exact Or.inr ⟨hw', lt_of_le_of_ne (not_lt.mp hv') (Ne.symm hv)⟩
  · rw [if_neg hv', if_neg hw'] at h
    exact absurd rfl h

/-- C9: (for a grid with distinct keys and no zero values, as the
sampler guarantees) an entry `(idx, v)` survives `compact_value_grid`
iff the grid holds, at some index within Chebyshev distance 1 of `idx`,
a value of sign opposite to `v`; and compaction only removes entries,
never changing a stored value. -/
theorem c9_compact_value_grid (g : Grid) (idx : Index) (v : ℚ)
    (hnodup : (g.map Prod.fst).Nodup)
    (hnz : ∀ e ∈ g, e.2 ≠ (0 : ℚ)) :
    ((idx, v) ∈ compact_value_grid g ↔
      (idx, v) ∈ g ∧ ∃ j w, (j, w) ∈ g ∧
        |j.1 - idx.1| ≤ 1 ∧ |j.2.1 - idx.2.1| ≤ 1 ∧ |j.2.2 - idx.2.2| ≤ 1 ∧
        ((v < 0 ∧ 0 < w) ∨ (w < 0 ∧ 0 < v))) ∧
    ∀ e ∈ compact_value_grid g, e ∈ g := by
  constructor
  · rw [compact_value_grid, List.mem_filter]
    constructor
    · rintro ⟨hm, hp⟩
      refine ⟨hm, ?_⟩
      rw [hasOppositeNeighbor, List.any_eq_true] at hp
      obtain ⟨o, ho, hpo⟩ := hp
      rcases hgg : gridGet g (iadd idx o) with - | w
      · rw [hgg] at hpo
        simp at hpo
      · rw [hgg] at hpo
        simp only [decide_eq_true_eq] at hpo
        have hwmem := mem_of_gridGet_eq_some g _ w hgg
        obtain ⟨hb1, hb2, hb3⟩ := (mem_offsets27_iff o).mp ho
        refine ⟨iadd idx o, w, hwmem, ?_, ?_, ?_, ?_⟩
        · simpa [iadd, add_sub_cancel_left] using hb1
        · simpa [iadd, add_sub_cancel_left] using hb2
        · simpa [iadd, add_sub_cancel_left] using hb3
        · exact opposite_of_signumF_ne v w (hnz (idx, v) hm) (hnz _ hwmem) hpo
    · rintro ⟨hm, j, w, hjmem, hb1, hb2, hb3, hsign⟩
      refine ⟨hm, ?_⟩
      rw [hasOppositeNeighbor, List.any_eq_true]
      refine ⟨(j.1 - idx.1, j.2.1 - idx.2.1, j.2.2 - idx.2.2), ?_, ?_⟩
      · exact (mem_offsets27_iff _).mpr ⟨hb1, hb2, hb3⟩
      · have hj : iadd idx (j.1 - idx.1, j.2.1 - idx.2.1, j.2.2 - idx.2.2) = j := by
          obtain ⟨j1, j2, j3⟩ := j
          simp [iadd]
        rw [hj, gridGet_eq_some_of_mem g j w hnodup hjmem]
        simpa using signumF_ne_of_opposite v w hsign
  · intro e he
    exact (List.mem_filter.mp he).1

/-- The concrete grid for the C9 witness: two adjacent entries with
opposite signs plus one isolated interior entry. -/
def c9grid : Grid := [((0, 0, 0), -1), ((1, 0, 0), 2), ((5, 5, 5), 3)]

/-- C9 witness: the characterization applied to `c9grid` at the entry
`((0,0,0), -1)` (which survives thanks to its `+2`-valued neighbor). -/
theorem c9_compact_value_grid_witness :
    (c9grid.map Prod.fst).Nodup ∧ (∀ e ∈ c9grid, e.2 ≠ (0 : ℚ)) ∧
      ((((0, 0, 0), (-1 : ℚ)) ∈ compact_value_grid c9grid ↔
        (((0, 0, 0), (-1 : ℚ))) ∈ c9grid ∧ ∃ j w, (j, w) ∈ c9grid ∧
          |j.1 - (0 : ℤ)| ≤ 1 ∧ |j.2.1 - (0 : ℤ)| ≤ 1 ∧ |j.2.2 - (0 : ℤ)| ≤ 1 ∧
          (((-1 : ℚ) < 0 ∧ 0 < w) ∨ (w < 0 ∧ 0 < (-1 : ℚ)))) ∧
      ∀ e ∈ compact_value_grid c9grid, e ∈ c9grid) := by
  have hnodup : (c9grid.map Prod.fst).Nodup := by decide
  have hnz : ∀ e ∈ c9grid, e.2 ≠ (0 : ℚ) := by
    intro e he
    simp only [c9grid, List.mem_cons, List.not_mem_nil, or_false] at he
    rcases he with rfl | rfl | rfl <;> norm_num
  refine ⟨hnodup, hnz, ?_⟩
  have := c9_compact_value_grid c9grid (0, 0, 0) (-1) hnodup hnz
  simpa using this

/-! ### Adaptive value-grid sampling (`sample_value_grid`) and claim C4 -/

/-- `HashMap::insert`: later bindings shadow earlier ones for `gridGet`. -/
def gridInsert (g : Grid) (k : Index) (v : ℚ) : Grid := (k, v) :: g

/-- The 8 sub-cube corner offsets in the source's z-outer / y-middle /
x-inner loop order. -/
def offsets8 : List (ℕ × ℕ × ℕ) :=
  [(0, 0, 0), (1, 0, 0), (0, 1, 0), (1, 1, 0), (0, 0, 1), (1, 0, 1), (0, 1, 1), (1, 1, 1)]

/-- The corner index `midx = idx + size * offset` of the sub-cube corner
(the loop's `midx` bookkeeping, resolved in closed form). -/
def subIdx (s : ℕ) (o : ℕ × ℕ × ℕ) (idx : Index) : Index :=
  (idx.1 + (s * o.1 : ℕ), idx.2.1 + (s * o.2.1 : ℕ), idx.2.2 + (s * o.2.2 : ℕ))

/-- The corner position `mpos` built from `vpos[x].x, vpos[y].y, vpos[z].z`
with `vpos = [pos, pos + (res,res,res)*size]`. -/
def subPos (s : ℕ) (o : ℕ × ℕ × ℕ) (res : ℚ) (pos : Pt) : Pt :=
  (pos.1 + (o.1 : ℚ) * ((s : ℚ) * res),
   pos.2.1 + (o.2.1 : ℚ) * ((s : ℚ) * res),
   pos.2.2 + (o.2.2 : ℚ) * ((s : ℚ) * res))

/-- The corner value: the parent's value is reused at the corner whose
index equals the cell's own (`midx == idx`), every other corner samples
the field. -/
def cornerVal (f : Pt → ℚ) (res : ℚ) (s : ℕ) (o : ℕ × ℕ × ℕ) (idx : Index)
    (pos : Pt) (val : ℚ) : ℚ :=
  if subIdx s o idx = idx then val else f (subPos s o res pos)

/-- The body of `sample_value_grid` with the halving `size / 2` already
performed (`s` is the source's shadowed `size`), the 2×2×2 loop
linearized over the remaining offsets, and an evaluation log of every
corner the loop touches (position, value) returned alongside the
`Result`: `Except.error p` is the `DualContouringError::HitZero`
carrying the position, `Except.ok` the updated value grid.  `√3` is
irrational, so the sub-cube-diagonal factor is an explicit parameter
`sqrt3`; nothing below depends on its value. -/
def svgGo (f : Pt → ℚ) (res sqrt3 : ℚ) :
    ℕ → List (ℕ × ℕ × ℕ) → Index → Pt → ℚ → Grid →
    List (Pt × ℚ) × Except Pt Grid
  | _, [], _, _, _, g => ([], Except.ok g)
  | s, o :: rest, idx, pos, val, g =>
    if cornerVal f res s o idx pos val = 0 then
      ([(subPos s o res pos, cornerVal f res s o idx pos val)],
        Except.error (subPos s o res pos))
    else if _h : 1 < s ∧ |cornerVal f res s o idx pos val| ≤ (s : ℚ) * res * sqrt3 then
      match svgGo f res sqrt3 (s / 2) offsets8 (subIdx s o idx) (subPos s o res pos)
          (cornerVal f res s o idx pos val) g with
      | (ev, Except.error p) =>
        ((subPos s o res pos, cornerVal f res s o idx pos val) :: ev, Except.error p)
      | (ev, Except.ok g') =>
        match svgGo f res sqrt3 s rest idx pos val g' with
        | (ev2, r) =>
          ((subPos s o res pos, cornerVal f res s o idx pos val) :: (ev ++ ev2), r)
    else
      match svgGo f res sqrt3 s rest idx pos val
          (gridInsert g (subIdx s o idx) (cornerVal f res s o idx pos val)) with
      | (ev2, r) =>
        ((subPos s o res pos, cornerVal f res s o idx pos val) :: ev2, r)
  termination_by s offs => (s, offs.length)
  decreasing_by
  · exact Prod.Lex.left _ _ (Nat.div_lt_self (by omega) (by omega))
  · exact Prod.Lex.right _ (by simp)
  · exact Prod.Lex.right _ (by simp)

/-- `sample_value_grid`: the halving `let size = size / 2` happens on
entry, then the 2×2×2 corner loop runs. -/
def sample_value_grid (f : Pt → ℚ) (res sqrt3 : ℚ) (idx : Index) (pos : Pt)
    (size : ℕ) (val : ℚ) (g : Grid) : List (Pt × ℚ) × Except Pt Grid :=
  svgGo f res sqrt3 (size / 2) offsets8 idx pos val g

/-- `pow2roundup`: the next power of two (bit-smearing implementation). -/
def pow2roundup (x : ℕ) : ℕ :=
  let x := x - 1
  let x := x ||| x >>> 1
  let x := x ||| x >>> 2
  let x := x ||| x >>> 4
  let x := x ||| x >>> 8
  let x := x ||| x >>> 16
  let x := x ||| x >>> 32
  x + 1

/-- `tessellation_step1`: sample from the origin over a power-of-two
cube spanning the largest grid dimension, seeding the recursion with
the field value at the origin. -/
def tessellation_step1 (f : Pt → ℚ) (res sqrt3 : ℚ) (origin : Pt)
    (dim : ℕ × ℕ × ℕ) : List (Pt × ℚ) × Except Pt Grid :=
  sample_value_grid f res sqrt3 (0, 0, 0) origin
    (pow2roundup (max dim.1 (max dim.2.1 dim.2.2))) (f origin) []

/-- When the reused parent value is taken (`midx == idx`), the corner
position coincides with the parent position, so the cached value is the
field value there too. -/
theorem cornerVal_eq (f : Pt → ℚ) (res : ℚ) (s : ℕ) (o : ℕ × ℕ × ℕ) (idx : Index)
    (pos : Pt) (val : ℚ) (hval : val = f pos) :
    cornerVal f res s o idx pos val = f (subPos s o res pos) := by
  unfold cornerVal
  split_ifs with h
  · have h1 := congrArg (fun t : Index => t.1) h
    have h2 := congrArg (fun t : Index => t.2.1) h
    have h3 := congrArg (fun t : Index => t.2.2) h
    simp only [subIdx] at h1 h2 h3
    have e1 : (s * o.1 : ℕ) = 0 := by omega
    have e2 : (s * o.2.1 : ℕ) = 0 := by omega
    have e3 : (s * o.2.2 : ℕ) = 0 := by omega
    have q1 : (o.1 : ℚ) * ((s : ℚ) * res) = 0 := by
      rcases Nat.mul_eq_zero.mp e1 with h' | h' <;> simp [h']
    have q2 : (o.2.1 : ℚ) * ((s : ℚ) * res) = 0 := by
      rcases Nat.mul_eq_zero.mp e2 with h' | h' <;> simp [h']
    have q3 : (o.2.2 : ℚ) * ((s : ℚ) * res) = 0 := by
      rcases Nat.mul_eq_zero.mp e3 with h' | h' <;> simp [h']
    have : subPos s o res pos = pos := by
      simp only [subPos, q1, q2, q3, add_zero]
    rw [hval, this]
  · rfl

/-- The sampler invariant, by functional induction on `svgGo`: every
logged evaluation is a field value; an error names a visited corner
where the field is exactly zero; a normal return means no visited
corner was zero and the grid still holds no zero. -/
theorem svgGo_spec (f : Pt → ℚ) (res sqrt3 : ℚ) (s : ℕ) (offs : List (ℕ × ℕ × ℕ))
    (idx : Index) (pos : Pt) (val : ℚ) (g : Grid) :
    val = f pos → (∀ k v, gridGet g k = some v → v ≠ 0) →
    ((∀ e ∈ (svgGo f res sqrt3 s offs idx pos val g).1, e.2 = f e.1) ∧
     (∀ p, (svgGo f res sqrt3 s offs idx pos val g).2 = Except.error p →
        f p = 0 ∧ (p, (0 : ℚ)) ∈ (svgGo f res sqrt3 s offs idx pos val g).1) ∧
     (∀ g2, (svgGo f res sqrt3 s offs idx pos val g).2 = Except.ok g2 →
        (∀ e ∈ (svgGo f res sqrt3 s offs idx pos val g).1, e.2 ≠ 0) ∧
        (∀ k v, gridGet g2 k = some v → v ≠ 0))) := by
  induction s, offs, idx, pos, val, g using svgGo.induct f res sqrt3 with
  | case1 s idx pos val g =>
    intro _hval hg
    refine ⟨?_, ?_, ?_⟩
    · intro e he
      simp [svgGo] at he
    · intro p hp
      simp [svgGo] at hp
    · intro g2 hok
      simp only [svgGo, Except.ok.injEq] at hok
      subst hok
      exact ⟨by simp [svgGo], hg⟩
  | case2 s o rest idx pos val g h0 =>
    intro hval _hg
    have hres : svgGo f res sqrt3 s (o :: rest) idx pos val g =
        ([(subPos s o res pos, cornerVal f res s o idx pos val)],
          Except.error (subPos s o res pos)) := by
      rw [svgGo, if_pos h0]
    rw [hres]
    have hcv := cornerVal_eq f res s o idx pos val hval
    refine ⟨?_, ?_, ?_⟩
    · intro e he
      simp only [List.mem_singleton] at he
      rw [he, hcv]
    · intro p hp
      simp only [Except.error.injEq] at hp
      subst hp
      refine ⟨by rw [← hcv, h0], ?_⟩
      rw [← h0]
      exact List.mem_singleton.mpr rfl
    · intro g2 hok
      simp at hok
  | case3 s o rest idx pos val g h0 h12 ev p heq ih =>
    intro hval hg
    have hcv := cornerVal_eq f res s o idx pos val hval
    have hres : svgGo f res sqrt3 s (o :: rest) idx pos val g =
        ((subPos s o res pos, cornerVal f res s o idx pos val) :: ev, Except.error p) := by
      rw [svgGo, if_neg h0, dif_pos h12, heq]
    rw [hres]
    obtain ⟨ih1, ih2, -⟩ := ih hcv hg
    rw [heq] at ih1 ih2
    refine ⟨?_, ?_, ?_⟩
    · intro e he
      rcases List.mem_cons.mp he with rfl | htl
      · exact hcv
      · exact ih1 e htl
    · intro p' hp'
      simp only [Except.error.injEq] at hp'
      subst hp'
      obtain ⟨hfp, hmem⟩ := ih2 p rfl
      exact ⟨hfp, List.mem_cons_of_mem _ hmem⟩
    · intro g2 hok
      simp at hok
  | case4 s o rest idx pos val g h0 h12 ev g' heq ev2 r heq2 ih ihsib =>
    intro hval hg
    have hcv := cornerVal_eq f res s o idx pos val hval
    have hres : svgGo f res sqrt3 s (o :: rest) idx pos val g =
        ((subPos s o res pos, cornerVal f res s o idx pos val) :: (ev ++ ev2), r) := by
      rw [svgGo, if_neg h0, dif_pos h12, heq]
      dsimp only
      rw [heq2]
    rw [hres]
    obtain ⟨ih1, -, ih3⟩ := ih hcv hg
    rw [heq] at ih1 ih3
    obtain ⟨ihev, hg'⟩ := ih3 g' rfl
    obtain ⟨is1, is2, is3⟩ := ihsib hval hg'
    rw [heq2] at is1 is2 is3
    refine ⟨?_, ?_, ?_⟩
    · intro e he
      rcases List.mem_cons.mp he with rfl | htl
      · exact hcv
      · rcases List.mem_append.mp htl with h' | h'
        · exact ih1 e h'
        · exact is1 e h'
    · intro p' hp'
      obtain ⟨hfp, hmem⟩ := is2 p' hp'
      exact ⟨hfp, List.mem_cons_of_mem _ (List.mem_append_right _ hmem)⟩
    · intro g2 hok
      obtain ⟨hev2, hg2⟩ := is3 g2 hok
      refine ⟨?_, hg2⟩
      intro e he
      rcases List.mem_cons.mp he with rfl | htl
      · exact h0
      · rcases List.mem_append.mp htl with h' | h'
        · exact ihev e h'
        · exact hev2 e h'
  | case5 s o rest idx pos val g h0 h12 ev2 r heq ihsib =>
    intro hval hg
    have hcv := cornerVal_eq f res s o idx pos val hval
    have hres : svgGo f res sqrt3 s (o :: rest) idx pos val g =
        ((subPos s o res pos, cornerVal f res s o idx pos val) :: ev2, r) := by
      rw [svgGo, if_neg h0, dif_neg h12, heq]
    rw [hres]
    have hgins : ∀ k v,
        gridGet (gridInsert g (subIdx s o idx) (cornerVal f res s o idx pos val)) k = some v →
        v ≠ 0 := by
      intro k v hkv
      rw [gridInsert, gridGet] at hkv
      split_ifs at hkv with hk
      · simp only [Option.some.injEq] at hkv
        rw [← hkv]
        exact h0
      · exact hg k v hkv
    obtain ⟨is1, is2, is3⟩ := ihsib hval hgins
    rw [heq] at is1 is2 is3
    refine ⟨?_, ?_, ?_⟩
    · intro e he
      rcases List.mem_cons.mp he with rfl | htl
      · exact hcv
      · exact is1 e htl
    · intro p' hp'
      obtain ⟨hfp, hmem⟩ := is2 p' hp'
      exact ⟨hfp, List.mem_cons_of_mem _ hmem⟩
    · intro g2 hok
      obtain ⟨hev2, hg2⟩ := is3 g2 hok
      refine ⟨?_, hg2⟩
      intro e he
      rcases List.mem_cons.mp he with rfl | htl
      · exact h0
      · exact hev2 e htl

/-- C4: given that the seed value is the field value at the seed
position and the incoming grid has no zero values, `sample_value_grid`
(i) logs only true field evaluations at the corners it visits, (ii)
returns a HitZero error carrying position `p` only when the field is
exactly zero at `p` and `p` is a visited corner (it appears in the log
with value 0), and (iii) on a normal return no visited corner evaluated
to zero — so HitZero occurs iff a visited corner is zero — and every
value stored in the resulting value grid is nonzero. -/
theorem c4_sample_value_grid (f : Pt → ℚ) (res sqrt3 : ℚ) (idx : Index) (pos : Pt)
    (size : ℕ) (val : ℚ) (g : Grid)
    (hval : val = f pos) (hg : ∀ k v, gridGet g k = some v → v ≠ 0) :
    (∀ e ∈ (sample_value_grid f res sqrt3 idx pos size val g).1, e.2 = f e.1) ∧
    (∀ p, (sample_value_grid f res sqrt3 idx pos size val g).2 = Except.error p →
      f p = 0 ∧ (p, (0 : ℚ)) ∈ (sample_value_grid f res sqrt3 idx pos size val g).1) ∧
    (∀ g2, (sample_value_grid f res sqrt3 idx pos size val g).2 = Except.ok g2 →
      (∀ e ∈ (sample_value_grid f res sqrt3 idx pos size val g).1, e.2 ≠ 0) ∧
      (∀ k v, gridGet g2 k = some v → v ≠ 0)) := by
  unfold sample_value_grid
  exact svgGo_spec f res sqrt3 (size / 2) offsets8 idx pos val g hval hg

/-- The constant field used for the C4 witness. -/
def c4f : Pt → ℚ := fun _ => 1

/-- C4 witness: the sampler invariant applied to the constant-1 field
on a size-2 cube starting from the empty grid. -/
theorem c4_sample_value_grid_witness :
    ((1 : ℚ) = c4f ((0 : ℚ), 0, 0)) ∧
    (∀ k v, gridGet [] k = some v → v ≠ 0) ∧
    ((∀ e ∈ (sample_value_grid c4f 1 2 (0, 0, 0) ((0 : ℚ), 0, 0) 2 1 []).1, e.2 = c4f e.1) ∧
     (∀ p, (sample_value_grid c4f 1 2 (0, 0, 0) ((0 : ℚ), 0, 0) 2 1 []).2 = Except.error p →
       c4f p = 0 ∧ (p, (0 : ℚ)) ∈ (sample_value_grid c4f 1 2 (0, 0, 0) ((0 : ℚ), 0, 0) 2 1 []).1) ∧
     (∀ g2, (sample_value_grid c4f 1 2 (0, 0, 0) ((0 : ℚ), 0, 0) 2 1 []).2 = Except.ok g2 →
       (∀ e ∈ (sample_value_grid c4f 1 2 (0, 0, 0) ((0 : ℚ), 0, 0) 2 1 []).1, e.2 ≠ 0) ∧
       (∀ k v, gridGet g2 k = some v → v ≠ 0))) :=
  ⟨rfl, fun k v h => by simp [gridGet] at h,
    c4_sample_value_grid c4f 1 2 (0, 0, 0) ((0 : ℚ), 0, 0) 2 1 [] rfl
      (fun k v h => by simp [gridGet] at h)⟩

/-! ### `lookup_cell_point`'s parent walk and claim C1 -/

/-- `vertex_octtree[ℓ][i]`, with Rust's out-of-bounds panic modelled as
`none`. -/
def vertexAt (layers : List (List Vertex)) (ℓ i : ℕ) : Option Vertex :=
  match layers[ℓ]? with
  | none => none
  | some lay => lay[i]?

/-- A vertex lookup bounds the layer number. -/
theorem vertexAt_lt (layers : List (List Vertex)) (ℓ i : ℕ) (v : Vertex)
    (h : vertexAt layers ℓ i = some v) : ℓ < layers.length := by
  by_contra hlen
  rw [vertexAt, List.getElem?_eq_none (not_lt.mp hlen)] at h
  simp at h

/-- One ascent step of the walk in `lookup_cell_point`: the current
vertex's parent handle and the parent vertex one layer up (`none` on
any panic). -/
def walkStep (layers : List (List Vertex)) (ℓ i : ℕ) : Option (ℕ × Vertex) :=
  match vertexAt layers ℓ i with
  | none => none
  | some v =>
    match v.parent with
    | none => none
    | some pi =>
      match vertexAt layers (ℓ + 1) pi with
      | none => none
      | some nv => some (pi, nv)

/-- A successful step means the parent layer exists. -/
theorem walkStep_lt (layers : List (List Vertex)) (ℓ i pi : ℕ) (nv : Vertex)
    (h : walkStep layers ℓ i = some (pi, nv)) : ℓ + 1 < layers.length := by
  unfold walkStep at h
  rcases h1 : vertexAt layers ℓ i with - | v
  · rw [h1] at h
    simp at h
  rw [h1] at h
  dsimp only at h
  rcases h2 : v.parent with - | pi'
  · rw [h2] at h
    simp at h
  rw [h2] at h
  dsimp only at h
  rcases h3 : vertexAt layers (ℓ + 1) pi' with - | nv'
  · rw [h3] at h
    simp at h
  rw [h3] at h
  exact vertexAt_lt layers (ℓ + 1) pi' nv' h3

/-- The `break` condition of the walk loop, on the parent vertex `nv`
reached from layer `ℓ`: its QEF was solved with error above the
tolerance, or the current layer is `len − 2` (the parent is the root;
the `usize` subtraction is modelled in `ℤ` so that `len < 2` never
matches, as in the source), or the parent is not 2-manifold. -/
def walkBreak (len : ℕ) (tol : ℚ) (ℓ : ℕ) (nv : Vertex) : Bool :=
  (match nv.qef.error with
   | some e => decide (e > tol)
   | none => false) ||
  decide ((ℓ : ℤ) = (len : ℤ) - 2) || !(is_2manifold nv)

/-- The parent walk of `lookup_cell_point` (the `loop` of lines
870-886): ascend until the break condition fires, returning the final
`(octtree_layer, octtree_index)`. -/
def walkFrom (layers : List (List Vertex)) (tol : ℚ) : ℕ → ℕ → Option (ℕ × ℕ)
  | ℓ, i =>
    match h : walkStep layers ℓ i with
    | none => none
    | some (pi, nv) =>
      if walkBreak layers.length tol ℓ nv then some (ℓ, i)
      else walkFrom layers tol (ℓ + 1) pi
  termination_by ℓ _ => layers.length - ℓ
  decreasing_by
  · have := walkStep_lt layers ℓ i pi nv h
    omega

/-- `layers` with vertex `(ℓ, i)` replaced. -/
def setVertex (layers : List (List Vertex)) (ℓ i : ℕ) (v : Vertex) :
    List (List Vertex) :=
  match layers[ℓ]? with
  | none => layers
  | some lay => layers.set ℓ (lay.set i v)

/-- The tail of `lookup_cell_point` after the walk: reuse the vertex's
`mesh_index` if set; otherwise lazily solve its QEF if (and only if)
the residual is still NaN, append the QEF solution to the mesh
vertices, and record the new index.  Returns the mesh index, the
updated octree and the updated mesh vertex list. -/
def lookup_cell_point (layers : List (List Vertex)) (tol : ℚ) (meshVerts : List Pt)
    (start : ℕ) : Option (ℕ × List (List Vertex) × List Pt) :=
  match walkFrom layers tol 0 start with
  | none => none
  | some (ℓ, i) =>
    match vertexAt layers ℓ i with
    | none => none
    | some v =>
      match v.mesh_index with
      | some m => some (m, layers, meshVerts)
      | none =>
        if v.qef.error = none then
          some (meshVerts.length,
            setVertex layers ℓ i
              { v with qef := v.qef.solve, mesh_index := some meshVerts.length },
            meshVerts ++ [v.qef.solution])
        else
          some (meshVerts.length,
            setVertex layers ℓ i { v with mesh_index := some meshVerts.length },
            meshVerts ++ [v.qef.solution])

/-- Written from the claim, for comparison: ascend while the parent's
QEF has been solved with residual at most the tolerance, the parent is
not the root, and the parent is 2-manifold; the first ancestor failing
a check is the chosen vertex, clamped at the layer one below the top. -/
def specChosenVertex (layers : List (List Vertex)) (tol : ℚ) : ℕ → ℕ → Option (ℕ × ℕ)
  | ℓ, i =>
    match h : walkStep layers ℓ i with
    | none => none
    | some (pi, nv) =>
      if ℓ + 1 = layers.length - 1 then some (ℓ, i)
      else if (match nv.qef.error with
               | some e => decide (e ≤ tol)
               | none => false) && is_2manifold nv then
        specChosenVertex layers tol (ℓ + 1) pi
      else some (ℓ + 1, pi)
  termination_by ℓ _ => layers.length - ℓ
  decreasing_by
  · have := walkStep_lt layers ℓ i pi nv h
    omega

/-- A vertex with the given parent handle, solved-error state and
children, trivial in every other field (manifold: χ = 1, no edge
intersections). -/
def mkVertex (parent : Option ℕ) (err : Option ℚ) (children : List ℕ) : Vertex :=
  { index := (0, 0, 0)
    qef := { error := err, solution := (0, 0, 0), residual := 0 }
    parent := parent
    children := children
    mesh_index := none
    edge_intersections := fun _ => 0
    euler_characteristic := 1 }

/-- A three-layer octree: a leaf, a middle vertex whose QEF is solved
with residual 5 (above the tolerance 1), and the root. -/
def c1layers : List (List Vertex) :=
  [[mkVertex (some 0) none []], [mkVertex (some 0) (some 5) [0]], [mkVertex none none [0]]]

/-- Evaluation of the code's walk on `c1layers`: the middle vertex's
residual 5 exceeds the tolerance 1, so the walk breaks immediately and
the *leaf* `(0,0)` is chosen. -/
theorem c1_walk_eval : walkFrom c1layers 1 0 0 = some (0, 0) := by
  have hstep : walkStep c1layers 0 0 = some (0, mkVertex (some 0) (some 5) [0]) := by
    simp [walkStep, vertexAt, c1layers, mkVertex]
  have hbreak : walkBreak c1layers.length 1 0 (mkVertex (some 0) (some 5) [0]) = true := by
    have h5 : decide ((5 : ℚ) > 1) = true := decide_eq_true (by norm_num)
    simp [walkBreak, mkVertex, h5]
  rw [walkFrom, hstep]
  simp only [hbreak, if_true]

/-- Evaluation of the claim's described walk on `c1layers`: the middle
vertex fails the residual check, so (per the claim) the *middle vertex*
`(1,0)` — the first failing ancestor — is chosen. -/
theorem c1_spec_eval : specChosenVertex c1layers 1 0 0 = some (1, 0) := by
  have hstep : walkStep c1layers 0 0 = some (0, mkVertex (some 0) (some 5) [0]) := by
    simp [walkStep, vertexAt, c1layers, mkVertex]
  have h5 : decide ((5 : ℚ) ≤ 1) = false := decide_eq_false (by norm_num)
  rw [specChosenVertex, hstep]
  simp [c1layers, mkVertex, h5]

/-- C1 counterexample: on `c1layers` with tolerance 1 the code chooses
the leaf `(0,0)` (the walk breaks *before* moving to the failing
parent), while the claim's "first ancestor that fails any check" is the
middle vertex `(1,0)`.  The described rule and the code disagree. -/
theorem c1_counterexample :
    walkFrom c1layers 1 0 0 = some (0, 0) ∧
      specChosenVertex c1layers 1 0 0 = some (1, 0) ∧
      ((0, 0) : ℕ × ℕ) ≠ (1, 0) :=
  ⟨c1_walk_eval, c1_spec_eval, by decide⟩

/-- The reflexive-transitive closure of passing (non-breaking) walk
steps: `AscendsTo p q` says the walk can move from position `p` up to
position `q` through parents that all pass the loop's checks. -/
inductive AscendsTo (layers : List (List Vertex)) (tol : ℚ) : ℕ × ℕ → ℕ × ℕ → Prop
  | refl (p : ℕ × ℕ) : AscendsTo layers tol p p
  | step (ℓ i pi : ℕ) (nv : Vertex) (q : ℕ × ℕ) :
      walkStep layers ℓ i = some (pi, nv) →
      walkBreak layers.length tol ℓ nv = false →
      AscendsTo layers tol (ℓ + 1, pi) q →
      AscendsTo layers tol (ℓ, i) q

/-- The walk's result is characterized by: it is reachable from the
start through passing steps, and its own parent triggers the break
condition. -/
theorem walkFrom_spec (layers : List (List Vertex)) (tol : ℚ) (ℓ i : ℕ) :
    ∀ r, walkFrom layers tol ℓ i = some r →
      AscendsTo layers tol (ℓ, i) r ∧
      (∃ pi nv, walkStep layers r.1 r.2 = some (pi, nv) ∧
        walkBreak layers.length tol r.1 nv = true) ∧
      r.1 + 2 ≤ layers.length := by
  induction ℓ, i using walkFrom.induct layers tol with
  | case1 ℓ i hstep =>
    intro r hr
    rw [walkFrom, hstep] at hr
    simp at hr
  | case2 ℓ i pi nv hstep hbreak =>
    intro r hr
    rw [walkFrom, hstep] at hr
    dsimp only at hr
    rw [if_pos hbreak] at hr
    simp only [Option.some.injEq] at hr
    subst hr
    refine ⟨AscendsTo.refl _, ⟨pi, nv, hstep, hbreak⟩, ?_⟩
    have := walkStep_lt layers ℓ i pi nv hstep
    omega
  | case3 ℓ i pi nv hstep hbreak ih =>
    intro r hr
    rw [walkFrom, hstep] at hr
    dsimp only at hr
    rw [if_neg hbreak] at hr
    obtain ⟨hasc, hbrk, hle⟩ := ih r hr
    exact ⟨AscendsTo.step ℓ i pi nv r hstep
      (Bool.not_eq_true _ ▸ eq_false_of_ne_true hbreak) hasc, hbrk, hle⟩

/-- C1 amended: starting from the leaf vertex, the walk ascends parents
while the parent's QEF is *unsolved or* solved with residual at most
the tolerance, the current layer is not `len − 2` (i.e. the parent is
not the octree root), and the parent is 2-manifold; the chosen vertex
is the *last* vertex all of whose ancestors' checks passed — the child
below the first failing parent, not that parent itself — and it always
lies at least two layers below `len`, i.e. at or below the layer one
below the top. -/
theorem c1_amended_walk (layers : List (List Vertex)) (tol : ℚ) (start ℓf jf : ℕ)
    (h : walkFrom layers tol 0 start = some (ℓf, jf)) :
    AscendsTo layers tol (0, start) (ℓf, jf) ∧
      (∃ pi nv, walkStep layers ℓf jf = some (pi, nv) ∧
        walkBreak layers.length tol ℓf nv = true) ∧
      ℓf + 2 ≤ layers.length :=
  walkFrom_spec layers tol 0 start (ℓf, jf) h

/-- C1 amended witness: the characterization applied to `c1layers`,
where the walk stops at the leaf `(0,0)`. -/
theorem c1_amended_walk_witness :
    walkFrom c1layers 1 0 0 = some (0, 0) ∧
      (AscendsTo c1layers 1 (0, 0) (0, 0) ∧
        (∃ pi nv, walkStep c1layers 0 0 = some (pi, nv) ∧
          walkBreak c1layers.length 1 0 nv = true) ∧
        0 + 2 ≤ c1layers.length) :=
  ⟨c1_walk_eval, c1_amended_walk c1layers 1 0 0 0 c1_walk_eval⟩

/-! ### The hierarchical QEF solve (`solve_qefs`) and claim C10 -/

/-- A vertex lookup decomposed into its two stages. -/
theorem vertexAt_eq (layers : List (List Vertex)) (ℓ i : ℕ) (v : Vertex)
    (h : vertexAt layers ℓ i = some v) :
    ∃ lay, layers[ℓ]? = some lay ∧ lay[i]? = some v := by
  unfold vertexAt at h
  rcases hl : layers[ℓ]? with - | lay
  · rw [hl] at h
    simp at h
  · rw [hl] at h
    exact ⟨lay, rfl, h⟩

/-- The list of `(layer, index)` positions whose QEF
`recursively_solve_qefs` solves, in visit order: the vertex itself, and
— when the just-computed residual exceeds the tolerance — its children
one layer down.  (The source asserts `children.len() == 0 || layer > 0`;
at layer 0 the model descends into nothing.) -/
def recursively_solve_qefs_visits (layers : List (List Vertex)) (tol : ℚ) :
    ℕ → ℕ → List (ℕ × ℕ)
  | ℓ, i =>
    match vertexAt layers ℓ i with
    | none => []
    | some v =>
      (ℓ, i) ::
        (if |v.qef.residual| > tol then
          match ℓ with
          | 0 => []
          | ℓ' + 1 =>
            v.children.flatMap (fun c => recursively_solve_qefs_visits layers tol ℓ' c)
        else [])
  termination_by ℓ _ => ℓ

/-- The positions solved by `solve_qefs`: every vertex of the top layer
is a root of the recursive descent. -/
def solve_qefs_visits (layers : List (List Vertex)) (tol : ℚ) : List (ℕ × ℕ) :=
  match layers.length with
  | 0 => []
  | n + 1 =>
    match layers[n]? with
    | none => []
    | some top =>
      (List.range top.length).flatMap (fun i => recursively_solve_qefs_visits layers tol n i)

/-- Every visit lies at or below the root of the descent. -/
theorem rsq_layer_le (layers : List (List Vertex)) (tol : ℚ) :
    ∀ ℓ i q, q ∈ recursively_solve_qefs_visits layers tol ℓ i → q.1 ≤ ℓ := by
  intro ℓ
  induction ℓ with
  | zero =>
    intro i q hq
    rw [recursively_solve_qefs_visits] at hq
    rcases hv : vertexAt layers 0 i with - | v
    · rw [hv] at hq
      simp at hq
    · rw [hv] at hq
      dsimp only at hq
      rcases List.mem_cons.mp hq with rfl | htl
      · exact le_refl 0
      · simp [ite_self] at htl
  | succ ℓ' ih =>
    intro i q hq
    rw [recursively_solve_qefs_visits] at hq
    rcases hv : vertexAt layers (ℓ' + 1) i with - | v
    · rw [hv] at hq
      simp at hq
    · rw [hv] at hq
      dsimp only at hq
      rcases List.mem_cons.mp hq with rfl | htl
      · exact le_refl _
      · by_cases hg : |v.qef.residual| > tol
        · rw [if_pos hg] at htl
          obtain ⟨c, hc, hqc⟩ := List.mem_flatMap.mp htl
          exact le_trans (ih c q hqc) (Nat.le_succ ℓ')
        · rw [if_neg hg] at htl
          simp at htl

/-- At layer 0 the only visit is the root itself. -/
theorem rsq_zero_mem (layers : List (List Vertex)) (tol : ℚ) (i : ℕ) (q : ℕ × ℕ)
    (hq : q ∈ recursively_solve_qefs_visits layers tol 0 i) : q = (0, i) := by
  rw [recursively_solve_qefs_visits] at hq
  rcases hv : vertexAt layers 0 i with - | v
  · rw [hv] at hq
    simp at hq
  · rw [hv] at hq
    dsimp only at hq
    rcases List.mem_cons.mp hq with rfl | htl
    · rfl
    · simp [ite_self] at htl

/-- Distinct roots in the same layer have disjoint visit sets, provided
children lists within each layer are pairwise disjoint. -/
theorem rsq_disjoint (layers : List (List Vertex)) (tol : ℚ)
    (Hdisj : ∀ (ℓ : ℕ) (lay : List Vertex), layers[ℓ]? = some lay →
      ∀ (a b : ℕ) (va vb : Vertex), lay[a]? = some va → lay[b]? = some vb → a ≠ b →
        ∀ c, c ∈ va.children → c ∉ vb.children) :
    ∀ ℓ i j, i ≠ j → ∀ q, q ∈ recursively_solve_qefs_visits layers tol ℓ i →
      q ∈ recursively_solve_qefs_visits layers tol ℓ j → False := by
  intro ℓ
  induction ℓ with
  | zero =>
    intro i j hne q hqi hqj
    have h1 := rsq_zero_mem layers tol i q hqi
    have h2 := rsq_zero_mem layers tol j q hqj
    rw [h1] at h2
    exact hne (congrArg Prod.snd h2)
  | succ ℓ' ih =>
    intro i j hne q hqi hqj
    rw [recursively_solve_qefs_visits] at hqi hqj
    rcases hvi : vertexAt layers (ℓ' + 1) i with - | vi
    · rw [hvi] at hqi
      simp at hqi
    rcases hvj : vertexAt layers (ℓ' + 1) j with - | vj
    · rw [hvj] at hqj
      simp at hqj
    rw [hvi] at hqi
    rw [hvj] at hqj
    dsimp only at hqi hqj
    rcases List.mem_cons.mp hqi with rfl | hti
    · rcases List.mem_cons.mp hqj with heq | htj
      · exact hne (congrArg Prod.snd heq)
      · by_cases hg : |vj.qef.residual| > tol
        · rw [if_pos hg] at htj
          obtain ⟨c, -, hqc⟩ := List.mem_flatMap.mp htj
          have := rsq_layer_le layers tol ℓ' c _ hqc
          omega
        · rw [if_neg hg] at htj
          simp at htj
    · rcases List.mem_cons.mp hqj with rfl | htj
      · by_cases hg : |vi.qef.residual| > tol
        · rw [if_pos hg] at hti
          obtain ⟨c, -, hqc⟩ := List.mem_flatMap.mp hti
          have := rsq_layer_le layers tol ℓ' c _ hqc
          omega
        · rw [if_neg hg] at hti
          simp at hti
      · by_cases hgi : |vi.qef.residual| > tol
        case neg =>
          rw [if_neg hgi] at hti
          simp at hti
        by_cases hgj : |vj.qef.residual| > tol
        case neg =>
          rw [if_neg hgj] at htj
          simp at htj
        rw [if_pos hgi] at hti
        rw [if_pos hgj] at htj
        obtain ⟨ci, hci, hqci⟩ := List.mem_flatMap.mp hti
        obtain ⟨cj, hcj, hqcj⟩ := List.mem_flatMap.mp htj
        obtain ⟨layi, hlayi, hgeti⟩ := vertexAt_eq layers (ℓ' + 1) i vi hvi
        obtain ⟨layj, hlayj, hgetj⟩ := vertexAt_eq layers (ℓ' + 1) j vj hvj
        rw [hlayi] at hlayj
        have hlay : layi = layj := by
          simpa using hlayj
        subst hlay
        have hcne : ci ≠ cj := by
          intro hcc
          subst hcc
          exact Hdisj (ℓ' + 1) layi hlayi i j vi vj hgeti hgetj hne ci hci hcj
        exact ih ci cj hcne q hqci hqcj

/-- Each descent's visit list has no duplicates, provided children lists
are duplicate-free and pairwise disjoint within each layer. -/
theorem rsq_nodup (layers : List (List Vertex)) (tol : ℚ)
    (Hdisj : ∀ (ℓ : ℕ) (lay : List Vertex), layers[ℓ]? = some lay →
      ∀ (a b : ℕ) (va vb : Vertex), lay[a]? = some va → lay[b]? = some vb → a ≠ b →
        ∀ c, c ∈ va.children → c ∉ vb.children)
    (Hchild : ∀ (ℓ : ℕ) (lay : List Vertex), layers[ℓ]? = some lay →
      ∀ v ∈ lay, v.children.Nodup) :
    ∀ ℓ i, (recursively_solve_qefs_visits layers tol ℓ i).Nodup := by
  intro ℓ
  induction ℓ with
  | zero =>
    intro i
    rw [recursively_solve_qefs_visits]
    rcases hv : vertexAt layers 0 i with - | v
    · exact List.nodup_nil
    · dsimp only
      simp [ite_self]
  | succ ℓ' ih =>
    intro i
    rw [recursively_solve_qefs_visits]
    rcases hv : vertexAt layers (ℓ' + 1) i with - | v
    · exact List.nodup_nil
    · dsimp only
      refine List.nodup_cons.mpr ⟨?_, ?_⟩
      · intro hmem
        by_cases hg : |v.qef.residual| > tol
        · rw [if_pos hg] at hmem
          obtain ⟨c, -, hqc⟩ := List.mem_flatMap.mp hmem
          have := rsq_layer_le layers tol ℓ' c _ hqc
          omega
        · rw [if_neg hg] at hmem
          simp at hmem
      · by_cases hg : |v.qef.residual| > tol
        · rw [if_pos hg]
          refine List.nodup_flatMap.mpr ⟨fun c _ => ih c, ?_⟩
          obtain ⟨lay, hlay, hget⟩ := vertexAt_eq layers (ℓ' + 1) i v hv
          have hvmem : v ∈ lay := List.getElem?_mem hget
          have hcn : v.children.Nodup := Hchild (ℓ' + 1) lay hlay v hvmem
          exact hcn.imp (fun hab => fun q hqa hqb =>
            rsq_disjoint layers tol Hdisj ℓ' _ _ hab q hqa hqb)
        · rw [if_neg hg]
          exact List.nodup_nil

/-- Every visit is either the descent's root or a child of an earlier
visit whose freshly solved residual exceeded the tolerance. -/
theorem rsq_provenance (layers : List (List Vertex)) (tol : ℚ) :
    ∀ ℓ i q, q ∈ recursively_solve_qefs_visits layers tol ℓ i →
      q = (ℓ, i) ∨
      ∃ p vp, p ∈ recursively_solve_qefs_visits layers tol ℓ i ∧
        vertexAt layers p.1 p.2 = some vp ∧
        |vp.qef.residual| > tol ∧ q.2 ∈ vp.children ∧ q.1 + 1 = p.1 := by
  intro ℓ
  induction ℓ with
  | zero =>
    intro i q hq
    exact Or.inl (rsq_zero_mem layers tol i q hq)
  | succ ℓ' ih =>
    intro i q hq
    rw [recursively_solve_qefs_visits] at hq
    rcases hv : vertexAt layers (ℓ' + 1) i with - | v
    · rw [hv] at hq
      simp at hq
    rw [hv] at hq
    dsimp only at hq
    rcases List.mem_cons.mp hq with rfl | htl
    · exact Or.inl rfl
    by_cases hg : |v.qef.residual| > tol
    case neg =>
      rw [if_neg hg] at htl
      simp at htl
    rw [if_pos hg] at htl
    obtain ⟨c, hc, hqc⟩ := List.mem_flatMap.mp htl
    have hmemsub : ∀ r, r ∈ recursively_solve_qefs_visits layers tol ℓ' c →
        r ∈ recursively_solve_qefs_visits layers tol (ℓ' + 1) i := by
      intro r hr
      rw [recursively_solve_qefs_visits, hv]
      dsimp only
      exact List.mem_cons_of_mem _ ((if_pos hg) ▸ List.mem_flatMap.mpr ⟨c, hc, hr⟩)
    have hself : ((ℓ' + 1 : ℕ), i) ∈ recursively_solve_qefs_visits layers tol (ℓ' + 1) i := by
      rw [recursively_solve_qefs_visits, hv]
      dsimp only
      exact List.mem_cons_self _ _
    rcases ih c q hqc with rfl | ⟨p, vp, hp, hvp, hgp, hchild, hlayer⟩
    · exact Or.inr ⟨(ℓ' + 1, i), v, hself, hv, hg, hc, rfl⟩
    · exact Or.inr ⟨p, vp, hmemsub p hp, hvp, hgp, hchild, hlayer⟩

/-- Replacing a vertex makes `vertexAt` return the replacement there. -/
theorem vertexAt_setVertex_self (layers : List (List Vertex)) (ℓ0 i0 : ℕ)
    (w v0 : Vertex) (h : vertexAt layers ℓ0 i0 = some v0) :
    vertexAt (setVertex layers ℓ0 i0 w) ℓ0 i0 = some w := by
  obtain ⟨lay, hlay, hget⟩ := vertexAt_eq layers ℓ0 i0 v0 h
  have hℓ : ℓ0 < layers.length := vertexAt_lt layers ℓ0 i0 v0 h
  have hi : i0 < lay.length := by
    by_contra hc
    rw [List.getElem?_eq_none (not_lt.mp hc)] at hget
    simp at hget
  unfold setVertex
  rw [hlay]
  unfold vertexAt
  rw [List.getElem?_set_eq_of_lt _ hℓ]
  dsimp only
  exact List.getElem?_set_eq_of_lt _ hi

/-- Replacing a vertex leaves every other position unchanged. -/
theorem vertexAt_setVertex_ne (layers : List (List Vertex)) (ℓ0 i0 : ℕ)
    (w : Vertex) (ℓ i : ℕ) (hne : ℓ ≠ ℓ0 ∨ i ≠ i0) :
    vertexAt (setVertex layers ℓ0 i0 w) ℓ i = vertexAt layers ℓ i := by
  unfold setVertex
  rcases hlay : layers[ℓ0]? with - | lay
  · rfl
  by_cases hℓ : ℓ = ℓ0
  · subst hℓ
    rcases hne with hne | hne
    · exact absurd rfl hne
    have hlen : ℓ < layers.length := by
      by_contra hc
      rw [List.getElem?_eq_none (not_lt.mp hc)] at hlay
      simp at hlay
    unfold vertexAt
    rw [List.getElem?_set_eq_of_lt _ hlen, hlay]
    dsimp only
    exact List.getElem?_set_ne (fun hcc => hne hcc.symm)
  · unfold vertexAt
    rw [List.getElem?_set_ne (fun hcc => hℓ hcc.symm)]

/-- C10: within one attempt each vertex's QEF is solved at most once.
Under a well-formed octree (children lists duplicate-free and pairwise
disjoint within each layer), (i) the top-down `solve_qefs` pass visits
— and hence solves — every position at most once; (ii) it descends into
a vertex only as a child of a visited vertex whose freshly stored
residual exceeds the tolerance `res · relative_error` (or as a root of
the top layer); and (iii) the lazy solve in `lookup_cell_point` changes
a vertex's QEF only when that QEF's residual was still NaN, replacing
it by its solved form. -/
theorem c10_qef_solved_once (layers : List (List Vertex)) (tol : ℚ)
    (meshVerts : List Pt) (start : ℕ)
    (Hdisj : ∀ (ℓ : ℕ) (lay : List Vertex), layers[ℓ]? = some lay →
      ∀ (a b : ℕ) (va vb : Vertex), lay[a]? = some va → lay[b]? = some vb → a ≠ b →
        ∀ c, c ∈ va.children → c ∉ vb.children)
    (Hchild : ∀ (ℓ : ℕ) (lay : List Vertex), layers[ℓ]? = some lay →
      ∀ v ∈ lay, v.children.Nodup) :
    (solve_qefs_visits layers tol).Nodup ∧
    (∀ q ∈ solve_qefs_visits layers tol,
      q.1 + 1 = layers.length ∨
      ∃ p vp, p ∈ solve_qefs_visits layers tol ∧ vertexAt layers p.1 p.2 = some vp ∧
        |vp.qef.residual| > tol ∧ q.2 ∈ vp.children ∧ q.1 + 1 = p.1) ∧
    (∀ m layers' mv', lookup_cell_point layers tol meshVerts start = some (m, layers', mv') →
      ∀ ℓ i v v', vertexAt layers ℓ i = some v → vertexAt layers' ℓ i = some v' →
        v'.qef ≠ v.qef → v.qef.error = none ∧ v'.qef = v.qef.solve) := by
  refine ⟨?_, ?_, ?_⟩
  · unfold solve_qefs_visits
    split
    · exact List.nodup_nil
    split
    · exact List.nodup_nil
    refine List.nodup_flatMap.mpr ⟨fun i _ => rsq_nodup layers tol Hdisj Hchild _ i, ?_⟩
    exact (List.nodup_range _).imp (fun hab => fun q hqa hqb =>
      rsq_disjoint layers tol Hdisj _ _ _ hab q hqa hqb)
  · intro q hq
    unfold solve_qefs_visits at hq ⊢
    cases hlen : layers.length with
    | zero =>
      rw [hlen] at hq
      dsimp only at hq
      simp at hq
    | succ n =>
      rw [hlen] at hq
      dsimp only at hq ⊢
      cases htop : layers[n]? with
      | none =>
        rw [htop] at hq
        dsimp only at hq
        simp at hq
      | some top =>
        rw [htop] at hq
        dsimp only at hq ⊢
        obtain ⟨i, hi, hqi⟩ := List.mem_flatMap.mp hq
        rcases rsq_provenance layers tol n i q hqi with rfl |
          ⟨p, vp, hp, hvp, hgp, hchild, hlayer⟩
        · exact Or.inl rfl
        · refine Or.inr ⟨p, vp, ?_, hvp, hgp, hchild, hlayer⟩
          exact List.mem_flatMap.mpr ⟨i, hi, hp⟩
  · intro m layers' mv' hlook ℓ i v v' hv hv' hqne
    unfold lookup_cell_point at hlook
    rcases hwalk : walkFrom layers tol 0 start with - | r
    · rw [hwalk] at hlook
      simp at hlook
    obtain ⟨ℓ0, i0⟩ := r
    rw [hwalk] at hlook
    dsimp only at hlook
    rcases hv0 : vertexAt layers ℓ0 i0 with - | v0
    · rw [hv0] at hlook
      simp at hlook
    rw [hv0] at hlook
    dsimp only at hlook
    rcases hmi : v0.mesh_index with - | mval
    case some =>
      rw [hmi] at hlook
      dsimp only at hlook
      simp only [Option.some.injEq, Prod.mk.injEq] at hlook
      obtain ⟨-, hlay', -⟩ := hlook
      rw [← hlay'] at hv'
      rw [hv'] at hv
      simp only [Option.some.injEq] at hv
      exact absurd (congrArg Vertex.qef hv) hqne
    rw [hmi] at hlook
    dsimp only at hlook
    by_cases hqe : v0.qef.error = none
    · rw [if_pos hqe] at hlook
      simp only [Option.some.injEq, Prod.mk.injEq] at hlook
      obtain ⟨-, hlay', -⟩ := hlook
      by_cases hpos : ℓ = ℓ0 ∧ i = i0
      · obtain ⟨rfl, rfl⟩ := hpos
        rw [← hlay', vertexAt_setVertex_self layers ℓ i _ v0 hv0] at hv'
        rw [hv0] at hv
        simp only [Option.some.injEq] at hv hv'
        subst hv
        rw [← hv']
        exact ⟨hqe, rfl⟩
      · rw [← hlay', vertexAt_setVertex_ne layers ℓ0 i0 _ ℓ i (not_and_or.mp hpos)] at hv'
        rw [hv'] at hv
        simp only [Option.some.injEq] at hv
        exact absurd (congrArg Vertex.qef hv) hqne
    · rw [if_neg hqe] at hlook
      simp only [Option.some.injEq, Prod.mk.injEq] at hlook
      obtain ⟨-, hlay', -⟩ := hlook
      by_cases hpos : ℓ = ℓ0 ∧ i = i0
      · obtain ⟨rfl, rfl⟩ := hpos
        rw [← hlay', vertexAt_setVertex_self layers ℓ i _ v0 hv0] at hv'
        rw [hv0] at hv
        simp only [Option.some.injEq] at hv hv'
        subst hv
        rw [← hv'] at hqne
        exact absurd rfl hqne
      · rw [← hlay', vertexAt_setVertex_ne layers ℓ0 i0 _ ℓ i (not_and_or.mp hpos)] at hv'
        rw [hv'] at hv
        simp only [Option.some.injEq] at hv
        exact absurd (congrArg Vertex.qef hv) hqne

/-- In a one-element list every successful lookup is at position 0. -/
theorem singleton_getElem_zero {α : Type} (x va : α) (a : ℕ)
    (h : [x][a]? = some va) : a = 0 := by
  rcases a with - | a'
  · rfl
  · simp at h

/-- C10 witness: the solved-once theorem applied to the three-layer
octree `c1layers` (whose per-layer children lists are trivially
duplicate-free and pairwise disjoint), with tolerance 1, an empty mesh
and the leaf as start. -/
theorem c10_qef_solved_once_witness :
    (∀ (ℓ : ℕ) (lay : List Vertex), c1layers[ℓ]? = some lay →
      ∀ (a b : ℕ) (va vb : Vertex), lay[a]? = some va → lay[b]? = some vb → a ≠ b →
        ∀ c, c ∈ va.children → c ∉ vb.children) ∧
    (∀ (ℓ : ℕ) (lay : List Vertex), c1layers[ℓ]? = some lay →
      ∀ v ∈ lay, v.children.Nodup) ∧
    ((solve_qefs_visits c1layers 1).Nodup ∧
     (∀ q ∈ solve_qefs_visits c1layers 1,
       q.1 + 1 = c1layers.length ∨
       ∃ p vp, p ∈ solve_qefs_visits c1layers 1 ∧ vertexAt c1layers p.1 p.2 = some vp ∧
         |vp.qef.residual| > 1 ∧ q.2 ∈ vp.children ∧ q.1 + 1 = p.1) ∧
     (∀ m layers' mv', lookup_cell_point c1layers 1 [] 0 = some (m, layers', mv') →
       ∀ ℓ i v v', vertexAt c1layers ℓ i = some v → vertexAt layers' ℓ i = some v' →
         v'.qef ≠ v.qef → v.qef.error = none ∧ v'.qef = v.qef.solve)) := by
  have hlen3 : c1layers.length = 3 := by simp [c1layers]
  have Hdisj : ∀ (ℓ : ℕ) (lay : List Vertex), c1layers[ℓ]? = some lay →
      ∀ (a b : ℕ) (va vb : Vertex), lay[a]? = some va → lay[b]? = some vb → a ≠ b →
        ∀ c, c ∈ va.children → c ∉ vb.children := by
    intro ℓ lay hlay a b va vb ha hb hab c _hc _hcb
    have hℓ : ℓ < 3 := by
      by_contra hcon
      rw [List.getElem?_eq_none (le_trans (le_of_eq hlen3) (not_lt.mp hcon))] at hlay
      exact absurd hlay (by simp)
    interval_cases ℓ <;>
      simp only [c1layers, List.getElem?_cons_zero, List.getElem?_cons_succ,
        Option.some.injEq] at hlay <;>
      subst hlay <;>
      exact hab ((singleton_getElem_zero _ va a ha).trans
        (singleton_getElem_zero _ vb b hb).symm)
  have Hchild : ∀ (ℓ : ℕ) (lay : List Vertex), c1layers[ℓ]? = some lay →
      ∀ v ∈ lay, v.children.Nodup := by
    intro ℓ lay hlay v hv
    have hℓ : ℓ < 3 := by
      by_contra hcon
      rw [List.getElem?_eq_none (le_trans (le_of_eq hlen3) (not_lt.mp hcon))] at hlay
      exact absurd hlay (by simp)
    interval_cases ℓ <;>
      simp only [c1layers, List.getElem?_cons_zero, List.getElem?_cons_succ,
        Option.some.injEq] at hlay <;>
      subst hlay <;>
      simp only [List.mem_singleton] at hv <;>
      subst hv <;>
      simp [mkVertex]
  exact ⟨Hdisj, Hchild, c10_qef_solved_once c1layers 1 [] 0 Hdisj Hchild⟩

/-! ### Octree subsampling Euler accounting
(`subsample_euler_characteristics`) and claim C6 -/

/-- `OUTSIDE_EDGES_PER_CORNER`: for each corner of the 2×2×2 block, the
three cell edges that lie on the parent cube's own edges. -/
def OUTSIDE_EDGES_PER_CORNER : Fin 8 → List (Fin 12)
  | 0 => [0, 1, 2]
  | 1 => [0, 4, 5]
  | 2 => [1, 3, 8]
  | 3 => [3, 4, 11]
  | 4 => [2, 6, 7]
  | 5 => [5, 6, 10]
  | 6 => [7, 8, 9]
  | 7 => [9, 10, 11]

/-- `outside_edges.get(i)` as a Bool. -/
def outsideEdge (c : Fin 8) (e : Fin 12) : Bool :=
  decide (e ∈ OUTSIDE_EDGES_PER_CORNER c)

/-- The low bit of a (lattice) coordinate, `i & 1`. -/
def bit01 (z : ℤ) : ℕ := (z % 2).toNat

theorem bit01_le (z : ℤ) : bit01 z ≤ 1 := by
  unfold bit01
  have h1 : 0 ≤ z % 2 := Int.emod_nonneg z (by norm_num)
  have h2 : z % 2 < 2 := Int.emod_lt_of_pos z (by norm_num)
  omega

/-- `corner_index = (i[2] & 1) << 2 | (i[1] & 1) << 1 | (i[0] & 1)`. -/
def cornerIndex (idx : Index) : Fin 8 :=
  ⟨bit01 idx.2.2 * 4 + bit01 idx.2.1 * 2 + bit01 idx.1, by
    have h1 := bit01_le idx.1
    have h2 := bit01_le idx.2.1
    have h3 := bit01_le idx.2.2
    omega⟩

/-- The sum, over the children being merged, of the intersection counts
on their *inner* edges (the loop's `inner_sum`). -/
def innerSum (children : List Vertex) : ℕ :=
  (children.map (fun v =>
    ∑ e : Fin 12,
      if outsideEdge (cornerIndex v.index) e then 0 else v.edge_intersections e)).sum

/-- The merged outside intersection counters (the loop's
`intersections`). -/
def outsideIntersections (children : List Vertex) : Fin 12 → ℕ :=
  fun e => (children.map (fun v =>
    if outsideEdge (cornerIndex v.index) e then v.edge_intersections e else 0)).sum

/-- `subsample_euler_characteristics`: merged intersections and the
parent's Euler characteristic `Σ χ_child − inner_sum / 4`. -/
def subsample_euler_characteristics (children : List Vertex) : (Fin 12 → ℕ) × ℤ :=
  (outsideIntersections children,
   (children.map Vertex.euler_characteristic).sum - ((innerSum children / 4 : ℕ) : ℤ))

/-- A physical lattice edge of the 2×2×2 block: the low corner (in the
3×3×3 corner lattice of the block) and the axis the edge runs along. -/
abbrev PhysEdge : Type := (Fin 3 × Fin 3 × Fin 3) × Fin 3

/-- The corner's coordinate bits within the block. -/
def cornerBits (c : Fin 8) : ℕ × ℕ × ℕ := (c.val % 2, c.val / 2 % 2, c.val / 4)

/-- The low-corner offset of each cell edge (the source's
`EDGE_OFFSET` table). -/
def EDGE_OFFSET : List (ℕ × ℕ × ℕ) :=
  [(0, 0, 0), (0, 0, 0), (0, 0, 0), (0, 1, 0), (1, 0, 0), (1, 0, 0),
   (0, 0, 1), (0, 0, 1), (0, 1, 0), (0, 1, 1), (1, 0, 1), (1, 1, 0)]

/-- The physical block edge occupied by edge `e` of the child sitting at
corner `c`: low corner = corner bits + edge offset, axis = `e % 3`
(`Edge::base`). -/
def physEdge (c : Fin 8) (e : Fin 12) : PhysEdge :=
  ((⟨((cornerBits c).1 + (EDGE_OFFSET.getD e.val (0, 0, 0)).1) % 3, Nat.mod_lt _ (by norm_num)⟩,
    ⟨((cornerBits c).2.1 + (EDGE_OFFSET.getD e.val (0, 0, 0)).2.1) % 3, Nat.mod_lt _ (by norm_num)⟩,
    ⟨((cornerBits c).2.2 + (EDGE_OFFSET.getD e.val (0, 0, 0)).2.2) % 3, Nat.mod_lt _ (by norm_num)⟩),
   ⟨e.val % 3, Nat.mod_lt _ (by norm_num)⟩)

/-- The two coordinates of a physical edge transverse to its axis. -/
def nonAxis (p : PhysEdge) : Fin 3 × Fin 3 :=
  if p.2 = 0 then (p.1.2.1, p.1.2.2)
  else if p.2 = 1 then (p.1.1, p.1.2.2)
  else (p.1.1, p.1.2.1)

/-- A physical edge lying on one of the block's own 12 edges: both
transverse coordinates are extreme. -/
abbrev onBlockBoundary (p : PhysEdge) : Prop :=
  ((nonAxis p).1 = 0 ∨ (nonAxis p).1 = 2) ∧ ((nonAxis p).2 = 0 ∨ (nonAxis p).2 = 2)

/-- A physical edge interior to the block: both transverse coordinates
are mid (shared by 4 children of the block). -/
abbrev typeB (p : PhysEdge) : Prop := (nonAxis p).1 = 1 ∧ (nonAxis p).2 = 1

/-- A physical edge on a face of the block but not on a block edge
(shared by exactly 2 children of the block). -/
abbrev typeA (p : PhysEdge) : Prop := ¬ onBlockBoundary p ∧ ¬ typeB p

/-- The total contribution of the children's *inner* edge slots mapping
to the physical edge `p`. -/
def innerContrib (children : List Vertex) (p : PhysEdge) : ℕ :=
  (children.map (fun v =>
    ∑ e : Fin 12,
      if ¬ (outsideEdge (cornerIndex v.index) e = true) ∧
          physEdge (cornerIndex v.index) e = p
      then v.edge_intersections e else 0)).sum

/-- The source's outside table marks exactly the slots whose physical
edge lies on a block edge (96-case check). -/
theorem outside_iff_phys :
    ∀ (c : Fin 8) (e : Fin 12),
      outsideEdge c e = true ↔ onBlockBoundary (physEdge c e) := by
  decide

/-- Swapping a finite sum with a list sum. -/
theorem finsetSum_listSum_swap {β : Type} [Fintype β] (l : List Vertex)
    (F : β → Vertex → ℕ) :
    ∑ b : β, (l.map (F b)).sum = (l.map (fun v => ∑ b : β, F b v)).sum := by
  induction l with
  | nil => simp
  | cons v tl ih =>
    simp only [List.map_cons, List.sum_cons, Finset.sum_add_distrib, ih]

/-- Per vertex, fibering the inner-slot sum over physical edges. -/
theorem inner_slot_fiber (v : Vertex) :
    (∑ e : Fin 12,
      if outsideEdge (cornerIndex v.index) e then 0 else v.edge_intersections e) =
    ∑ p : PhysEdge, ∑ e : Fin 12,
      if ¬ (outsideEdge (cornerIndex v.index) e = true) ∧
          physEdge (cornerIndex v.index) e = p
      then v.edge_intersections e else 0 := by
  rw [Finset.sum_comm]
  refine Finset.sum_congr rfl (fun e _ => ?_)
  by_cases ho : outsideEdge (cornerIndex v.index) e = true
  · rw [if_pos ho]
    refine (Finset.sum_eq_zero (fun p _ => ?_)).symm
    rw [if_neg]
    intro h
    exact h.1 ho
  · rw [if_neg ho]
    have : ∀ p ∈ Finset.univ,
        (if ¬ (outsideEdge (cornerIndex v.index) e = true) ∧
            physEdge (cornerIndex v.index) e = p
         then v.edge_intersections e else 0) =
        (if physEdge (cornerIndex v.index) e = p then v.edge_intersections e else 0) := by
      intro p _
      by_cases hp : physEdge (cornerIndex v.index) e = p
      · rw [if_pos ⟨ho, hp⟩, if_pos hp]
      · rw [if_neg (fun h => hp h.2), if_neg hp]
    rw [Finset.sum_congr rfl this, Finset.sum_ite_eq]
    simp

/-- `inner_sum` fibered over physical edges. -/
theorem innerSum_eq_sum_contrib (children : List Vertex) :
    innerSum children = ∑ p : PhysEdge, innerContrib children p := by
  unfold innerSum innerContrib
  rw [finsetSum_listSum_swap]
  exact congrArg List.sum (List.map_congr_left (fun v _ => inner_slot_fiber v))

/-- Block-boundary physical edges receive no inner contribution. -/
theorem innerContrib_boundary (children : List Vertex) (p : PhysEdge)
    (hp : onBlockBoundary p) : innerContrib children p = 0 := by
  unfold innerContrib
  refine List.sum_eq_zero (fun x hx => ?_)
  obtain ⟨v, -, rfl⟩ := List.mem_map.mp hx
  refine Finset.sum_eq_zero (fun e _ => ?_)
  rw [if_neg]
  rintro ⟨hno, hpe⟩
  exact hno (((outside_iff_phys (cornerIndex v.index) e).mpr) (hpe ▸ hp))

/-- C6: for a parent formed by `subsample_euler_characteristics` from
children whose inner contributions are consistent across shared
physical edges — on each face-interior edge (shared by 2 block cells)
the total is `2·m p`, on each block-interior edge (shared by 4) it is
`4·m p`, with the face multiplicities of even total (the per-face
even-crossing parity of sign-change patterns) — `inner_sum` is
divisible by 4, and the parent's Euler characteristic is
`Σ χ_child − inner_sum / 4`. -/
theorem c6_euler_accounting (children : List Vertex) (m : PhysEdge → ℕ)
    (HA : ∀ p, typeA p → innerContrib children p = 2 * m p)
    (HB : ∀ p, typeB p → innerContrib children p = 4 * m p)
    (H3 : 2 ∣ ∑ p ∈ Finset.univ.filter typeA, m p) :
    4 ∣ innerSum children ∧
    (subsample_euler_characteristics children).2 =
      (children.map Vertex.euler_characteristic).sum - (innerSum children : ℤ) / 4 := by
  constructor
  · rw [innerSum_eq_sum_contrib]
    rw [← Finset.sum_filter_add_sum_filter_not Finset.univ typeA]
    have h1 : ∑ p ∈ Finset.univ.filter typeA, innerContrib children p =
        2 * ∑ p ∈ Finset.univ.filter typeA, m p := by
      rw [Finset.mul_sum]
      exact Finset.sum_congr rfl (fun p hp => HA p (Finset.mem_filter.mp hp).2)
    rw [h1]
    rw [← Finset.sum_filter_add_sum_filter_not
      (Finset.univ.filter (fun p => ¬ typeA p)) typeB]
    have h2 : ∑ p ∈ (Finset.univ.filter (fun p => ¬ typeA p)).filter typeB,
        innerContrib children p =
        4 * ∑ p ∈ (Finset.univ.filter (fun p => ¬ typeA p)).filter typeB, m p := by
      rw [Finset.mul_sum]
      exact Finset.sum_congr rfl (fun p hp => HB p (Finset.mem_filter.mp hp).2)
    have h3 : ∑ p ∈ (Finset.univ.filter (fun p => ¬ typeA p)).filter (fun p => ¬ typeB p),
        innerContrib children p = 0 := by
      refine Finset.sum_eq_zero (fun p hp => ?_)
      have hmem := Finset.mem_filter.mp hp
      have hnA := (Finset.mem_filter.mp hmem.1).2
      have hnB := hmem.2
      have hbd : onBlockBoundary p := by
        by_contra hob
        exact hnA ⟨hob, hnB⟩
      exact innerContrib_boundary children p hbd
    rw [h2, h3]
    obtain ⟨t, ht⟩ := H3
    rw [ht]
    ring_nf
    omega
  · unfold subsample_euler_characteristics
    norm_num

/-- A leaf vertex of the C6 witness block: the flat surface `z = const`
crosses all four vertical edges (2, 5, 8, 11) of each lower child. -/
def c6child (idx : Index) : Vertex :=
  { index := idx
    qef := { error := none, solution := (0, 0, 0), residual := 0 }
    parent := none
    children := []
    mesh_index := none
    edge_intersections := fun e => if e = 2 ∨ e = 5 ∨ e = 8 ∨ e = 11 then 1 else 0
    euler_characteristic := 1 }

/-- The four lower children of the C6 witness block. -/
def c6children : List Vertex :=
  [c6child (0, 0, 0), c6child (1, 0, 0), c6child (0, 1, 0), c6child (1, 1, 0)]

/-- The per-physical-edge multiplicities of the C6 witness: the five
crossed vertical lattice edges of the lower layer. -/
def c6m : PhysEdge → ℕ := fun p =>
  if p = ((1, 0, 0), 2) ∨ p = ((0, 1, 0), 2) ∨ p = ((1, 1, 0), 2) ∨
      p = ((2, 1, 0), 2) ∨ p = ((1, 2, 0), 2)
  then 1 else 0

/-- C6 witness: the Euler accounting applied to the flat-plane block;
`inner_sum = 12` is divisible by 4 and the parent's χ is `4 − 3 = 1`. -/
theorem c6_euler_accounting_witness :
    (∀ p, typeA p → innerContrib c6children p = 2 * c6m p) ∧
    (∀ p, typeB p → innerContrib c6children p = 4 * c6m p) ∧
    (2 ∣ ∑ p ∈ Finset.univ.filter typeA, c6m p) ∧
    (4 ∣ innerSum c6children ∧
      (subsample_euler_characteristics c6children).2 =
        (c6children.map Vertex.euler_characteristic).sum - (innerSum c6children : ℤ) / 4) := by
  have hA : ∀ p, typeA p → innerContrib c6children p = 2 * c6m p := by decide
  have hB : ∀ p, typeB p → innerContrib c6children p = 4 * c6m p := by decide
  have h3 : 2 ∣ ∑ p ∈ Finset.univ.filter typeA, c6m p := by decide
  exact ⟨hA, hB, h3, c6_euler_accounting c6children c6m hA hB h3⟩

end MDC
